import Mathlib

/- Shallow embedding of the book-to-audiobook pipeline core of this
repository (Frontend/vite.config.ts): the sentence-based text chunker,
the CLI-output sanitizer, the speech-speed slider mapping, the WAV
parser/splicer, and the job-status updates of the process-book-complete
driver.  Strings are modelled as `List Char`, buffers as `List Nat`
(one entry per byte), and the asynchronous driver as the list of job
records it writes to the job registry. -/

namespace ReadinTime

/-! ## Text chunker (`splitTextIntoChunks`, vite.config.ts lines 214-228) -/

/-- JavaScript whitespace as matched by the regex class `\s` (restricted to
the ASCII range; the pipeline feeds the chunker ASCII-normalised text). -/
def isWsChar (c : Char) : Bool :=
  c = ' ' || c = '\t' || c = '\n' || c = '\r' || c = '\x0b' || c = '\x0c'

/-- Terminal sentence punctuation: the class `[.!?]` of the splitting regex. -/
def isTermChar (c : Char) : Bool :=
  c = '.' || c = '!' || c = '?'

theorem length_dropWhile_le_rt (p : Char → Bool) (l : List Char) :
    (l.dropWhile p).length ≤ l.length := by
  induction l with
  | nil => simp [List.dropWhile]
  | cons c cs ih =>
    by_cases h : p c
    · simp only [List.dropWhile, h, List.length_cons]
      omega
    · simp [List.dropWhile, h]

/-- One left-to-right pass of `text.split(/(?<=[.!?])\s+/)`: a maximal run of
whitespace whose preceding character is terminal punctuation separates two
pieces and is consumed; every other character is kept in the current piece.
`prevTerm` records whether the previously scanned character was terminal
punctuation (the lookbehind) and `acc` holds the current piece reversed;
`dropping` is set while the whitespace run of a match is being consumed
(right after a piece is closed), so that the maximal run is skipped before
normal scanning resumes. -/
def splitScan (dropping prevTerm : Bool) (acc : List Char) :
    List Char → List (List Char)
  | [] => [acc.reverse]
  | c :: cs =>
    if dropping then
      if isWsChar c then splitScan true false acc cs
      else splitScan false (isTermChar c) (c :: acc) cs
    else if prevTerm && isWsChar c then
      acc.reverse :: splitScan true false [] cs
    else
      splitScan false (isTermChar c) (c :: acc) cs
/-- `text.split(/(?<=[.!?])\s+/)` from the source. -/
def jsSentenceSplit (text : List Char) : List (List Char) :=
  splitScan false false [] text

/-- JavaScript `String.prototype.trim`: strip leading and trailing
whitespace. -/
def trimChars (l : List Char) : List Char :=
  ((l.dropWhile isWsChar).reverse.dropWhile isWsChar).reverse

/-- The chunk accumulator of `splitTextIntoChunks`: the chunks pushed so far
and the sentence group being accumulated (`current`). -/
structure ChunkState where
  chunks : List (List Char)
  current : List Char
deriving DecidableEq, Repr

/-- One loop iteration of `splitTextIntoChunks`: close the current chunk when
appending the sentence (with a joining space when `current` is nonempty)
would exceed `maxChars` and `current` is nonempty (JavaScript truthiness of
the string `current`); otherwise append the sentence. -/
def chunkStep (maxChars : Nat) (st : ChunkState) (s : List Char) : ChunkState :=
  if (st.current ++ (if st.current ≠ [] then [' '] else []) ++ s).length > maxChars
      ∧ st.current ≠ [] then
    { chunks := st.chunks ++ [trimChars st.current], current := s }
  else
    { st with current := if st.current ≠ [] then st.current ++ ' ' :: s else s }

/-- `splitTextIntoChunks(text, maxChars)` from the source: split into
sentences, greedily accumulate them, push the trimmed remainder when its
trim is nonempty, and fall back to `[text]` when no chunk was produced. -/
def splitTextIntoChunks (text : List Char) (maxChars : Nat := 300) :
    List (List Char) :=
  let sentences := jsSentenceSplit text
  let st := sentences.foldl (chunkStep maxChars) ⟨[], []⟩
  let chunks :=
    if trimChars st.current ≠ [] then st.chunks ++ [trimChars st.current]
    else st.chunks
  if chunks ≠ [] then chunks else [text]

/-- Single-space join, the reading of "chunk concatenation (space-joined)"
used by the spec and the reconstruction claims. -/
def joinSp : List (List Char) → List Char
  | [] => []
  | [s] => s
  | s :: rest => s ++ ' ' :: joinSp rest

/-! ## CLI output sanitizer (`sanitizeCliOutput`, lines 141-155) -/

/-- `text.split(/\r?\n/)`: a newline, optionally preceded by a carriage
return, separates lines; a lone carriage return does not. -/
def splitLinesJs : List Char → List (List Char)
  | [] => [[]]
  | '\r' :: '\n' :: rest => [] :: splitLinesJs rest
  | '\n' :: rest => [] :: splitLinesJs rest
  | c :: rest =>
    match splitLinesJs rest with
    | [] => [[c]]
    | l :: ls => (c :: l) :: ls

/-- Substring test, the semantics of `/pat/.test(line)` for a regex that is a
plain literal. -/
def containsSub (pat line : List Char) : Bool :=
  decide (List.IsInfix pat line)

/-- The filter of `sanitizeCliOutput`: a line is noisy when any of the seven
patterns of the source matches (the `i`-flagged ones case-insensitively,
modelled by lowercasing the line). -/
def isNoisyLine (line : List Char) : Bool :=
  let lower := line.map Char.toLower
  containsSub "FutureWarning".data line
    || containsSub "UserWarning".data line
    || containsSub "LoRACompatibleLinear".data line
    || containsSub "deprecated".data lower
    || containsSub "tokenizers parallelism".data lower
    || containsSub "huggingface hub telemetry".data lower
    || containsSub "MKL".data line
    || containsSub "OpenBLAS".data line
    || containsSub "OMP".data line
    || containsSub "KMP".data line

/-- `sanitizeCliOutput(raw)` from the source: drop noisy lines, rejoin with
newlines, trim. -/
def sanitizeCliOutput (raw : List Char) : List Char :=
  trimChars
    (List.intercalate ['\n'] ((splitLinesJs raw).filter (fun l => !isNoisyLine l)))

/-- JavaScript `String(code)` for the exit code of a closed child process
(`number | null`). -/
def jsCodeString : Option Int → String
  | none => "null"
  | some n => toString n

/-- The failure message built by the TTS chunk close handler (lines
1015-1022): a sanitized tail is appended only when nonempty, and the
access-violation exit code gets a dedicated message. -/
def ttsCloseMessage (code : Option Int) (stderr : List Char) : List Char :=
  let cleaned := sanitizeCliOutput stderr
  let tail := if cleaned.isEmpty then [] else ": ".data ++ cleaned
  if jsCodeString code = "3221225477" then
    "tts_cli encountered an access violation (0xC0000005). Try shorter text and ensure sufficient memory".data ++ tail
  else
    "tts_cli exited ".data ++ (jsCodeString code).data ++ tail

/-! ## Speed slider (`sliderToAtempo`, lines 231-235) -/

/-- A JavaScript value reaching `sliderToAtempo`: `undefined`, `null`, or a
number.  Finite numbers are modelled exactly by rationals; the three
non-finite numbers are constructors of their own.  The IEEE operations the
source performs (`min`, `max`, halving, adding 0.5) round monotonically
between the exactly representable endpoints 0.5 and 1.0, so the rational
model is faithful for the interval claims. -/
inductive JsNum where
  | undef
  | nullv
  | nan
  | posInf
  | negInf
  | fin (q : ℚ)

/-- `Number.isFinite` (no coercion: `undefined`, `null`, `NaN` and the
infinities all fail). -/
def jsIsFinite : JsNum → Bool
  | .fin _ => true
  | _ => false

/-- `sliderToAtempo(sliderValue)` from the source: non-finite input defaults
to 0.7, the value is clamped to [0, 1] and mapped to `0.5 + 0.5 * s`. -/
def sliderToAtempo (v : JsNum) : ℚ :=
  let raw : ℚ := match v with | .fin q => q | _ => 7/10
  let s := max 0 (min 1 raw)
  1/2 + (1/2) * s

/-! ## WAV parser and splicer (`combineWavs` with inner `parseWav`,
lines 300-389).  A Node `Buffer` is a `List Nat`; each cell stores one
byte, so every read is taken modulo 256. -/

/-- One byte of a buffer: out-of-range cells read as 0 only through the
ASCII slice (Node's `toString` stops at the buffer end and the slice then
differs from every four-character tag, which rendering as NUL bytes also
achieves); numeric reads below are always guarded in bounds. -/
def readByte (buf : List Nat) (i : Nat) : Nat :=
  buf.getD i 0 % 256

/-- `buf.readUInt16LE(off)`. -/
def readU16 (buf : List Nat) (off : Nat) : Nat :=
  readByte buf off + 256 * readByte buf (off + 1)

/-- `buf.readUInt32LE(off)`. -/
def readU32 (buf : List Nat) (off : Nat) : Nat :=
  readByte buf off + 256 * readByte buf (off + 1)
    + 65536 * readByte buf (off + 2) + 16777216 * readByte buf (off + 3)

/-- `buf.toString('ascii', pos, pos + 4)` compared byte-wise: Node's ascii
decoding masks each byte to 7 bits. -/
def ascii4 (buf : List Nat) (pos : Nat) : List Nat :=
  [readByte buf pos % 128, readByte buf (pos + 1) % 128,
    readByte buf (pos + 2) % 128, readByte buf (pos + 3) % 128]

/-- The `fmt ` chunk fields extracted by `parseWav`. -/
structure FmtInfo where
  format : Nat
  channels : Nat
  sampleRate : Nat
  bitsPerSample : Nat
deriving DecidableEq, Repr

/-- `WavInfo` of the source: format descriptor, data-chunk location, and the
raw buffer. -/
structure WavInfo where
  format : Nat
  channels : Nat
  sampleRate : Nat
  bitsPerSample : Nat
  dataOffset : Nat
  dataLength : Nat
  buffer : List Nat
deriving DecidableEq, Repr

/-- The chunk-walking `while` loop of `parseWav`: while a chunk header (4-byte
id, 4-byte little-endian size) fits, record the `fmt ` fields or the `data`
location (later occurrences overwrite earlier ones, as repeated assignment
does in the source) and advance past the chunk plus its even-byte padding.
Reading the `fmt ` fields past the buffer end raises in Node
(`readUInt16LE`/`readUInt32LE` are bounds-checked), modelled as an error.
The position grows by at least 8 each step, so the walk terminates. -/
def chunkWalk (buf : List Nat) (pos : Nat)
    (fmt? : Option FmtInfo) (data? : Option (Nat × Nat)) :
    Except String (Option FmtInfo × Option (Nat × Nat)) :=
  if h : pos + 8 ≤ buf.length then
    let id := ascii4 buf pos
    let size := readU32 buf (pos + 4)
    let chunkStart := pos + 8
    if id = [102, 109, 116, 32] then  -- "fmt "
      if chunkStart + 16 ≤ buf.length then
        chunkWalk buf (chunkStart + size + size % 2)
          (some ⟨readU16 buf chunkStart, readU16 buf (chunkStart + 2),
            readU32 buf (chunkStart + 4), readU16 buf (chunkStart + 14)⟩) data?
      else
        .error "RangeError"
    else if id = [100, 97, 116, 97] then  -- "data"
      chunkWalk buf (chunkStart + size + size % 2) fmt? (some (chunkStart, size))
    else
      chunkWalk buf (chunkStart + size + size % 2) fmt? data?
  else
    .ok (fmt?, data?)
termination_by buf.length - pos
decreasing_by all_goals omega

/-- `parseWav(buf)` from the source: check the RIFF/WAVE magic, walk the
chunk records from offset 12, and require both a `fmt ` and a `data` chunk. -/
def parseWav (buf : List Nat) : Except String WavInfo :=
  if ascii4 buf 0 = [82, 73, 70, 70] ∧ ascii4 buf 8 = [87, 65, 86, 69] then
    match chunkWalk buf 12 none none with
    | .error e => .error e
    | .ok (some f, some (off, len)) =>
      .ok ⟨f.format, f.channels, f.sampleRate, f.bitsPerSample, off, len, buf⟩
    | .ok (_, _) => .error "Invalid WAV: missing fmt or data"
  else
    .error "Not a RIFF/WAVE file"

/-- The per-fragment parse loop of `combineWavs`: the first parse failure
aborts. -/
def parseAll : List (List Nat) → Except String (List WavInfo)
  | [] => .ok []
  | b :: bs =>
    match parseWav b with
    | .error e => .error e
    | .ok i =>
      match parseAll bs with
      | .error e => .error e
      | .ok is => .ok (i :: is)

/-- The format compatibility check of `combineWavs` against the first
fragment. -/
def sameFmt (i first : WavInfo) : Bool :=
  i.format = first.format ∧ i.channels = first.channels
    ∧ i.sampleRate = first.sampleRate ∧ i.bitsPerSample = first.bitsPerSample

/-- Little-endian bytes of `writeUInt16LE`. -/
def u16LE (v : Nat) : List Nat :=
  [v % 256, v / 256 % 256]

/-- Little-endian bytes of `writeUInt32LE`. -/
def u32LE (v : Nat) : List Nat :=
  [v % 256, v / 256 % 256, v / 65536 % 256, v / 16777216 % 256]

/-- The `data` payload of a parsed fragment, `buffer.subarray(dataOffset,
dataOffset + dataLength)`: `subarray` clamps to the buffer end. -/
def wavPayload (i : WavInfo) : List Nat :=
  (i.buffer.drop i.dataOffset).take i.dataLength

/-- The 44-byte header written by `combineWavs` for the first fragment's
format and the given total payload length. -/
def wavHeader (first : WavInfo) (totalData : Nat) : List Nat :=
  let fmtChunkSize := 16
  let riffChunkSize := 4 + (8 + fmtChunkSize) + (8 + totalData)
  let byteRate := first.sampleRate * first.channels * (first.bitsPerSample / 8)
  let blockAlign := first.channels * (first.bitsPerSample / 8)
  [82, 73, 70, 70] ++ u32LE riffChunkSize ++ [87, 65, 86, 69]
    ++ [102, 109, 116, 32] ++ u32LE fmtChunkSize
    ++ u16LE first.format ++ u16LE first.channels
    ++ u32LE first.sampleRate ++ u32LE byteRate
    ++ u16LE blockAlign ++ u16LE first.bitsPerSample
    ++ [100, 97, 116, 97] ++ u32LE totalData

/-- `combineWavs(inputFiles, outputFile)` from the source, returning the
bytes written to the output file; `Except.error` means an exception was
thrown before anything was written (the format check and all header
arithmetic precede the single `writeFile`).  An empty input list makes
`infos[0]` undefined and the field access throw.  Node's `writeUInt32LE`
and `writeUInt16LE` are range-checked, so a header field that cannot be
encoded also throws; `bitsPerSample / 8` is JavaScript float division,
which agrees with this natural-number division whenever the bit depth is a
multiple of 8 (the bytes it feeds are not read back by `parseWav`). -/
def combineWavs (inputs : List (List Nat)) : Except String (List Nat) :=
  match parseAll inputs with
  | .error e => .error e
  | .ok [] => .error "TypeError: Cannot read properties of undefined"
  | .ok (first :: rest) =>
    if rest.all (fun i => sameFmt i first) then
      let totalData := ((first :: rest).map (fun i => i.dataLength)).sum
      let riffChunkSize := 4 + (8 + 16) + (8 + totalData)
      let byteRate := first.sampleRate * first.channels * (first.bitsPerSample / 8)
      let blockAlign := first.channels * (first.bitsPerSample / 8)
      if riffChunkSize ≤ 4294967295 ∧ byteRate ≤ 4294967295 ∧ blockAlign ≤ 65535 then
        .ok (wavHeader first totalData ++ ((first :: rest).map wavPayload).flatten)
      else
        .error "RangeError"
    else
      .error "WAV format mismatch between chunks"

/-! ## Job registry and pipeline driver (`process-book-complete`,
lines 814-1100).  The driver is the async IIFE that mutates
`activeJobs[jobId]` through `update(patch)` merges; its registry writes are
modelled as the list of records after each assignment.  External effects
(file writes, spawned CLIs) are summarised by an environment saying which
operation, if any, throws, and with what message. -/

/-- A registry record (`JobStatus` of the source; the optional
`filename`/`title`/`files_created` fields are carried for the merge
semantics). -/
structure JobRec where
  stage : String
  progress : Int
  message : String
  status : String
  filename : Option String
  title : Option String
  filesCreated : Option (List (String × Bool))
deriving DecidableEq, Repr

/-- A `Partial<JobStatus>` patch: only the fields present in the object
literal passed to `update`. -/
structure JobPatch where
  stage : Option String := none
  progress : Option Int := none
  message : Option String := none
  status : Option String := none
  filesCreated : Option (List (String × Bool)) := none
deriving DecidableEq, Repr

/-- `activeJobs[jobId] = { ...activeJobs[jobId], ...patch }`: spread merge,
present fields win. -/
def applyPatch (j : JobRec) (p : JobPatch) : JobRec :=
  { stage := p.stage.getD j.stage
    progress := p.progress.getD j.progress
    message := p.message.getD j.message
    status := p.status.getD j.status
    filename := j.filename
    title := j.title
    filesCreated := p.filesCreated.orElse (fun _ => j.filesCreated) }

/-- The records written by a list of `update` calls starting from record
`j` (each call stores the merged record in the registry). -/
def emitList (j : JobRec) : List JobPatch → List JobRec
  | [] => []
  | p :: ps => applyPatch j p :: emitList (applyPatch j p) ps

/-- The operation of a run that throws, aborting into the outer `catch`.
`ttsChunk k` is the synthesis call for chunk index `k`; the WhisperX
transcription call is not listed here because its failure is caught by the
inner `try` and the run continues (`whisperFails` below). -/
inductive FailPoint where
  | saveFile
  | pdfCli
  | ttsChunk (k : Nat)
  | combine
  | adjustSpeed
deriving DecidableEq, Repr

/-- One run of the driver: the source-file kind, whether voice cloning is
enabled (which skips the speed-adjustment stage), the chunk count
`splitTextIntoChunks(mdText, 300).length`, the display title, the rounded
speed percentage of the `adjusting_speed` message, which operation throws
(if any) and the `.message` of the thrown error, and whether the WhisperX
transcription fails (caught by the inner `try`). -/
structure PipelineEnv where
  isPdf : Bool
  voiceCloning : Bool
  chunkCount : Nat
  titleDisp : String
  speedPct : Nat
  failAt : Option FailPoint
  failMsg : String
  whisperFails : Bool

/-- A reachable environment: at least one chunk (`splitTextIntoChunks` never
returns an empty list), a PDF-CLI failure only for a PDF run, a chunk
failure only at an existing chunk, and a speed-adjustment failure only when
that stage runs. -/
def PipelineEnv.wf (env : PipelineEnv) : Prop :=
  1 ≤ env.chunkCount
    ∧ (env.failAt = some .pdfCli → env.isPdf = true)
    ∧ (∀ k, env.failAt = some (.ttsChunk k) → k < env.chunkCount)
    ∧ (env.failAt = some .adjustSpeed → env.voiceCloning = false)

/-- The initial record stored at job creation (line 816). -/
def initRec (env : PipelineEnv) : JobRec :=
  { stage := "starting", progress := 0
    message := "Started processing '" ++ env.titleDisp ++ "'"
    status := "processing"
    filename := some "input", title := some env.titleDisp
    filesCreated := none }

/-- The `saving_file` update (line 831). -/
def savingPatch (env : PipelineEnv) : JobPatch :=
  { stage := some "saving_file", progress := some 5
    message := some ("Saving " ++ (if env.isPdf then "PDF" else "TXT") ++ " (0–30%)...") }

/-- The `converting_pdf` update (line 843). -/
def convertingPdfPatch : JobPatch :=
  { stage := some "converting_pdf", progress := some 10
    message := some "Converting PDF to text (0–30%)..." }

/-- The `converted_pdf` update (line 892). -/
def convertedPdfPatch : JobPatch :=
  { stage := some "converted_pdf", progress := some 30
    message := some "PDF converted (30%)" }

/-- The `converting_txt` update (line 899). -/
def convertingTxtPatch : JobPatch :=
  { stage := some "converting_txt", progress := some 10
    message := some "Processing TXT file (0–30%)..." }

/-- The `converted_txt` update (line 921). -/
def convertedTxtPatch : JobPatch :=
  { stage := some "converted_txt", progress := some 30
    message := some "TXT processed (30%)" }

/-- The conversion-phase updates: `converting_pdf`/`converted_pdf` for a PDF
run, `converting_txt`/`converted_txt` for a TXT run (lines 841-926). -/
def convertPatches (env : PipelineEnv) : List JobPatch :=
  if env.isPdf then [convertingPdfPatch, convertedPdfPatch]
  else [convertingTxtPatch, convertedTxtPatch]

/-- The `generating_audio` preparation update (line 953). -/
def genPrepPatch : JobPatch :=
  { stage := some "generating_audio", progress := some 30
    message := some "Preparing audio generation (30–60%)..." }

/-- The per-chunk update before spawning chunk `i` of `n` (lines 972-976):
`30 + Math.floor((i / Math.max(1, totalChunks)) * 30)`.  JavaScript computes
the quotient in binary floating point; for every index of a run the double
rounding lands on the exact value, modelled by natural floor division. -/
def genChunkPatch (n i : Nat) : JobPatch :=
  { stage := some "generating_audio"
    progress := some ((30 + (i * 30) / (max 1 n) : Nat) : Int)
    message := some ("Generating audio chunk " ++ toString (i + 1) ++ "/"
      ++ toString n ++ " (30–60%)...") }

/-- The chunk updates written before the first `upTo` synthesis calls. -/
def chunkPatches (n upTo : Nat) : List JobPatch :=
  (List.range upTo).map (genChunkPatch n)

/-- The `combining_audio` update (line 1029). -/
def combinePatch : JobPatch :=
  { stage := some "combining_audio", progress := some 58
    message := some "Combining audio chunks (≈60%)..." }

/-- The `adjusting_speed` update (line 1034), written only when voice
cloning is disabled. -/
def adjustPatch (env : PipelineEnv) : JobPatch :=
  { stage := some "adjusting_speed", progress := some 60
    message := some ("Adjusting speech speed to " ++ toString env.speedPct
      ++ "% (≈62%)...") }

/-- The `transcribing` update (line 1060). -/
def transcribingPatch : JobPatch :=
  { stage := some "transcribing", progress := some 60
    message := some "Transcribing audio (60–90%)..." }

/-- The `transcribed` update (line 1089), reached only when WhisperX
succeeds. -/
def transcribedPatch : JobPatch :=
  { stage := some "transcribed", progress := some 90
    message := some "Transcription complete (90%)" }

/-- The `finalizing` update (line 1094). -/
def finalizingPatch : JobPatch :=
  { stage := some "finalizing", progress := some 95
    message := some "Finalizing..." }

/-- The terminal `completed` update (line 1095). -/
def completedPatch (env : PipelineEnv) : JobPatch :=
  { stage := some "completed", progress := some 100
    message := some ("Processed '" ++ env.titleDisp ++ "' successfully")
    status := some "completed"
    filesCreated := some [("audio", true)] }

/-- The terminal `failed` update of the outer `catch` (line 1098). -/
def failedPatch (env : PipelineEnv) : JobPatch :=
  { stage := some "failed", progress := some (-1)
    message := some env.failMsg, status := some "failed" }

/-- The `update` calls of one run, in source order: each progress update is
written before the operation it announces, so a throw at an operation cuts
the list right after that operation's announcement and appends the `catch`'s
terminal patch.  A WhisperX failure only suppresses the `transcribed`
update. -/
def pipelinePatches (env : PipelineEnv) : List JobPatch :=
  match env.failAt with
  | some .saveFile => [savingPatch env, failedPatch env]
  | some .pdfCli =>
    [savingPatch env, convertingPdfPatch, failedPatch env]
  | some (.ttsChunk k) =>
    [savingPatch env] ++ convertPatches env ++ [genPrepPatch]
      ++ chunkPatches env.chunkCount (k + 1) ++ [failedPatch env]
  | some .combine =>
    [savingPatch env] ++ convertPatches env ++ [genPrepPatch]
      ++ chunkPatches env.chunkCount env.chunkCount
      ++ [combinePatch, failedPatch env]
  | some .adjustSpeed =>
    [savingPatch env] ++ convertPatches env ++ [genPrepPatch]
      ++ chunkPatches env.chunkCount env.chunkCount
      ++ [combinePatch, adjustPatch env, failedPatch env]
  | none =>
    [savingPatch env] ++ convertPatches env ++ [genPrepPatch]
      ++ chunkPatches env.chunkCount env.chunkCount
      ++ [combinePatch]
      ++ (if env.voiceCloning then [] else [adjustPatch env])
      ++ [transcribingPatch]
      ++ (if env.whisperFails then [] else [transcribedPatch])
      ++ [finalizingPatch, completedPatch env]

/-- The full sequence of records written to the job's registry entry: the
creation record followed by every merged update. -/
def pipelineTrace (env : PipelineEnv) : List JobRec :=
  initRec env :: emitList (initRec env) (pipelinePatches env)

/-- The progress values of the records whose status is `processing`, in
write order. -/
def processingProgress (env : PipelineEnv) : List Int :=
  ((pipelineTrace env).filter (fun r => r.status = "processing")).map
    (fun r => r.progress)

/-- Non-decreasing check over adjacent elements. -/
def sortedLE : List Int → Bool
  | [] => true
  | [_] => true
  | a :: b :: t => a ≤ b && sortedLE (b :: t)

/-! ## Lemmas about the sentence splitter -/

theorem splitScan_ne_nil (l : List Char) :
    ∀ (dropping prevTerm : Bool) (acc : List Char),
      splitScan dropping prevTerm acc l ≠ [] := by
  induction l with
  | nil => intro d pt acc; simp [splitScan]
  | cons c cs ih =>
    intro d pt acc
    rw [splitScan]
    split
    · split
      · exact ih _ _ _
      · exact ih _ _ _
    · split
      · simp
      · exact ih _ _ _

theorem splitScan_no_term (l : List Char) :
    ∀ acc : List Char, (∀ c ∈ l, isTermChar c = false) →
      splitScan false false acc l = [acc.reverse ++ l] := by
  induction l with
  | nil => intro acc _; simp [splitScan]
  | cons c cs ih =>
    intro acc h
    have hc : isTermChar c = false := h c (by simp)
    rw [splitScan, if_neg (by simp), if_neg (by simp), hc,
      ih (c :: acc) (fun d hd => h d (by simp [hd]))]
    simp

theorem splitScan_singleton (l : List Char) :
    ∀ (prevTerm : Bool) (acc p : List Char),
      splitScan false prevTerm acc l = [p] → p = acc.reverse ++ l := by
  induction l with
  | nil =>
    intro pt acc p h
    simp [splitScan] at h
    simp [h.symm]
  | cons c cs ih =>
    intro pt acc p h
    rw [splitScan] at h
    rw [if_neg (by simp)] at h
    by_cases hcond : (pt && isWsChar c) = true
    · rw [if_pos hcond] at h
      exact absurd (List.cons_eq_cons.1 h).2 (splitScan_ne_nil _ _ _ _)
    · rw [if_neg hcond] at h
      rw [ih _ _ _ h]
      simp

theorem splitScan_dropLast_ends_term (l : List Char) :
    ∀ (dropping prevTerm : Bool) (acc : List Char),
      (prevTerm = true → ∃ c a, acc = c :: a ∧ isTermChar c = true) →
      ∀ piece ∈ (splitScan dropping prevTerm acc l).dropLast,
        ∃ pre c, piece = pre ++ [c] ∧ isTermChar c = true := by
  induction l with
  | nil => intro d pt acc _; simp [splitScan]
  | cons c cs ih =>
    intro d pt acc hacc
    rw [splitScan]
    split
    · split
      · exact ih _ _ _ (by simp)
      · exact ih _ _ _ (fun hct => ⟨c, acc, rfl, hct⟩)
    · split
      · rename_i hcond
        have hpt : pt = true := by
          have h1 := hcond
          simp only [Bool.and_eq_true] at h1
          exact h1.1
        obtain ⟨c0, a, haeq, hterm⟩ := hacc hpt
        intro piece hp
        rw [List.dropLast_cons_of_ne_nil (splitScan_ne_nil _ _ _ _)] at hp
        rcases List.mem_cons.1 hp with hmem | hmem
        · exact ⟨a.reverse, c0, by simp [hmem, haeq], hterm⟩
        · exact ih _ _ _ (by simp) piece hmem
      · exact ih _ _ _ (fun hct => ⟨c, acc, rfl, hct⟩)

theorem term_not_ws (c : Char) (h : isTermChar c = true) : isWsChar c = false := by
  simp only [isTermChar, Bool.or_eq_true, decide_eq_true_eq] at h
  rcases h with (h | h) | h <;> subst h <;> decide

/-! ## Lemmas about trimming -/

theorem trim_length_le (l : List Char) : (trimChars l).length ≤ l.length := by
  have h1 := length_dropWhile_le_rt isWsChar l
  have h2 := length_dropWhile_le_rt isWsChar (l.dropWhile isWsChar).reverse
  simp only [trimChars, List.length_reverse] at *
  omega

theorem trim_eq_nil_all_ws (l : List Char) (h : trimChars l = []) :
    ∀ c ∈ l, isWsChar c = true := by
  simp only [trimChars, List.reverse_eq_nil_iff] at h
  rw [List.dropWhile_eq_nil_iff] at h
  intro c hc
  by_cases hmem : c ∈ l.dropWhile isWsChar
  · exact h c (by simpa using hmem)
  · have hc' : c ∈ l.takeWhile isWsChar ++ l.dropWhile isWsChar := by
      rw [List.takeWhile_append_dropWhile]
      exact hc
    rcases List.mem_append.1 hc' with h' | h'
    · exact List.mem_takeWhile_imp h'
    · exact absurd h' hmem

/-- Whether the first character exists and is whitespace. -/
def headIsWs (l : List Char) : Bool :=
  match l.head? with
  | some c => isWsChar c
  | none => false

/-- A string that is nonempty and has non-whitespace first and last
characters (trimming such a string is the identity). -/
def goodEnds (l : List Char) : Prop :=
  l ≠ [] ∧ headIsWs l = false ∧ headIsWs l.reverse = false

instance goodEndsDecidable (l : List Char) : Decidable (goodEnds l) :=
  inferInstanceAs (Decidable (l ≠ [] ∧ headIsWs l = false ∧ headIsWs l.reverse = false))

theorem dropWhile_of_headIsWs_false (l : List Char) (h : headIsWs l = false) :
    l.dropWhile isWsChar = l := by
  cases l with
  | nil => rfl
  | cons c cs =>
    simp only [headIsWs, List.head?_cons] at h
    simp [List.dropWhile, h]

theorem trim_goodEnds (l : List Char) (h : goodEnds l) : trimChars l = l := by
  obtain ⟨hne, h1, h2⟩ := h
  rw [trimChars, dropWhile_of_headIsWs_false _ h1,
    dropWhile_of_headIsWs_false _ h2, List.reverse_reverse]

theorem headIsWs_append_left (x y : List Char) (hx : x ≠ []) :
    headIsWs (x ++ y) = headIsWs x := by
  cases x with
  | nil => exact absurd rfl hx
  | cons c cs => simp [headIsWs]

theorem goodEnds_join (x y : List Char) (hx : goodEnds x) (hy : goodEnds y) :
    goodEnds (x ++ ' ' :: y) := by
  obtain ⟨hxne, hx1, hx2⟩ := hx
  obtain ⟨hyne, hy1, hy2⟩ := hy
  refine ⟨by simp [hxne], ?_, ?_⟩
  · rw [headIsWs_append_left _ _ hxne]
    exact hx1
  · have hyr : y.reverse ≠ [] := by simpa using hyne
    rw [List.reverse_append, show (' ' :: y).reverse = y.reverse ++ [' '] from by simp,
      List.append_assoc, headIsWs_append_left _ _ hyr]
    exact hy2

/-! ## Lemmas about the single-space join -/

theorem joinSp_cons (s : List Char) (rest : List (List Char)) (h : rest ≠ []) :
    joinSp (s :: rest) = s ++ ' ' :: joinSp rest := by
  cases rest with
  | nil => exact absurd rfl h
  | cons t ts => rfl

theorem joinSp_append (x y : List (List Char)) (hx : x ≠ []) (hy : y ≠ []) :
    joinSp (x ++ y) = joinSp x ++ ' ' :: joinSp y := by
  induction x with
  | nil => exact absurd rfl hx
  | cons s x' ih =>
    cases x' with
    | nil => simpa using joinSp_cons s y hy
    | cons t ts =>
      rw [List.cons_append, joinSp_cons _ _ (by simp),
        joinSp_cons _ _ (by simp), ih (by simp)]
      simp

theorem goodEnds_joinSp (b : List (List Char)) (hb : b ≠ [])
    (h : ∀ s ∈ b, goodEnds s) : goodEnds (joinSp b) := by
  induction b with
  | nil => exact absurd rfl hb
  | cons s rest ih =>
    cases rest with
    | nil => simpa [joinSp] using h s (by simp)
    | cons t ts =>
      rw [joinSp_cons _ _ (by simp)]
      exact goodEnds_join _ _ (h s (by simp))
        (ih (by simp) (fun x hx => h x (by simp [hx])))

theorem joinSp_eq_nil (cb : List (List Char)) (hgood : ∀ s ∈ cb, goodEnds s)
    (h : joinSp cb = []) : cb = [] := by
  cases cb with
  | nil => rfl
  | cons s rest =>
    exfalso
    cases rest with
    | nil =>
      exact (hgood s (by simp)).1 (by simpa [joinSp] using h)
    | cons t ts =>
      rw [joinSp_cons _ _ (by simp)] at h
      rcases List.append_eq_nil.1 h with ⟨_, h2⟩
      exact List.cons_ne_nil _ _ h2

theorem joinSp_blocks (blocks : List (List (List Char)))
    (h : ∀ b ∈ blocks, b ≠ []) :
    joinSp (blocks.map joinSp) = joinSp blocks.flatten := by
  induction blocks with
  | nil => rfl
  | cons b rest ih =>
    cases rest with
    | nil => simp [joinSp]
    | cons b2 bs =>
      have hb2 : (b2 :: bs).flatten ≠ [] := by
        have : b2 ≠ [] := h b2 (by simp)
        cases b2 with
        | nil => exact absurd rfl this
        | cons x xs => simp
      rw [List.map_cons, joinSp_cons _ _ (by simp),
        ih (fun x hx => h x (by simp [hx]))]
      conv_rhs => rw [List.flatten_cons]
      rw [joinSp_append _ _ (h b (by simp)) hb2]

/-! ## Fold invariants of the chunk accumulator -/

theorem chunkFold_chunks_mono (B : Nat) (l : List (List Char)) :
    ∀ st : ChunkState,
      st.chunks.length ≤ (List.foldl (chunkStep B) st l).chunks.length := by
  induction l with
  | nil => intro st; simp
  | cons s l' ih =>
    intro st
    rw [List.foldl_cons]
    refine le_trans ?_ (ih (chunkStep B st s))
    simp only [chunkStep]
    split <;> split <;> simp

/-- When no chunk is closed across the whole fold, `current` is the
space-join of the processed sentences (accumulated by the else branch). -/
theorem chunkFold_nil_chunks (B : Nat) (l : List (List Char)) :
    ∀ st : ChunkState,
      (List.foldl (chunkStep B) st l).chunks = st.chunks →
      (List.foldl (chunkStep B) st l).current =
        List.foldl (fun c s => if c ≠ [] then c ++ ' ' :: s else s) st.current l := by
  induction l with
  | nil => intro st _; simp
  | cons s l' ih =>
    intro st h
    rw [List.foldl_cons] at h ⊢
    by_cases hcond : (st.current ++ (if st.current ≠ [] then [' '] else []) ++ s).length > B
        ∧ st.current ≠ []
    · exfalso
      have hstep : chunkStep B st s
          = { chunks := st.chunks ++ [trimChars st.current], current := s } := by
        simp only [chunkStep, if_pos hcond]
      rw [hstep] at h
      have hmono := chunkFold_chunks_mono B l'
        ({ chunks := st.chunks ++ [trimChars st.current], current := s } : ChunkState)
      rw [h] at hmono
      simp at hmono
    · have hstep : chunkStep B st s
          = { st with current := if st.current ≠ [] then st.current ++ ' ' :: s else s } := by
        simp only [chunkStep, if_neg hcond]
      rw [hstep] at h ⊢
      exact ih _ h

theorem joinAcc_prefix (l : List (List Char)) :
    ∀ cur : List Char, cur ≠ [] →
      cur <+: List.foldl (fun c s => if c ≠ [] then c ++ ' ' :: s else s) cur l := by
  induction l with
  | nil => intro cur _; simp
  | cons s l' ih =>
    intro cur hcur
    rw [List.foldl_cons, if_pos hcur]
    exact List.IsPrefix.trans ⟨' ' :: s, rfl⟩ (ih _ (by simp [hcur]))

/-- The bound invariant: every closed chunk is within the bound or is the
trim of a single sentence, and `current` is empty, within the bound, or a
single sentence. -/
theorem chunkFold_bound (B : Nat) (sents : List (List Char)) :
    ∀ (l : List (List Char)) (st : ChunkState),
      (∀ s ∈ l, s ∈ sents) →
      (∀ ch ∈ st.chunks, ch.length ≤ B ∨ ∃ s ∈ sents, ch = trimChars s) →
      (st.current = [] ∨ st.current.length ≤ B ∨ st.current ∈ sents) →
      (∀ ch ∈ (List.foldl (chunkStep B) st l).chunks,
          ch.length ≤ B ∨ ∃ s ∈ sents, ch = trimChars s)
        ∧ ((List.foldl (chunkStep B) st l).current = []
            ∨ (List.foldl (chunkStep B) st l).current.length ≤ B
            ∨ (List.foldl (chunkStep B) st l).current ∈ sents) := by
  intro l
  induction l with
  | nil => intro st _ hch hcur; exact ⟨hch, hcur⟩
  | cons s l' ih =>
    intro st hl hch hcur
    rw [List.foldl_cons]
    have hs : s ∈ sents := hl s (by simp)
    by_cases hcond : (st.current ++ (if st.current ≠ [] then [' '] else []) ++ s).length > B
        ∧ st.current ≠ []
    · have hstep : chunkStep B st s
          = { chunks := st.chunks ++ [trimChars st.current], current := s } := by
        simp only [chunkStep, if_pos hcond]
      rw [hstep]
      refine ih _ (fun x hx => hl x (by simp [hx])) ?_ (by simp [hs])
      intro ch hchm
      rcases List.mem_append.1 hchm with hmem | hmem
      · exact hch ch hmem
      · have hch1 : ch = trimChars st.current := by simpa using hmem
        rcases hcur with h0 | hlen | hsin
        · exact absurd h0 hcond.2
        · exact Or.inl (hch1 ▸ le_trans (trim_length_le _) hlen)
        · exact Or.inr ⟨st.current, hsin, hch1⟩
    · have hstep : chunkStep B st s
          = { st with current := if st.current ≠ [] then st.current ++ ' ' :: s else s } := by
        simp only [chunkStep, if_neg hcond]
      rw [hstep]
      refine ih _ (fun x hx => hl x (by simp [hx])) hch ?_
      by_cases h0 : st.current = []
      · right; right
        simpa [h0] using hs
      · right; left
        have hA : ¬(st.current ++ (if st.current ≠ [] then [' '] else []) ++ s).length > B :=
          fun hgt => hcond ⟨hgt, h0⟩
        rw [if_pos h0] at hA
        simp only [if_pos h0, List.length_append, List.length_cons] at hA ⊢
        simp at hA
        omega

/-- The block invariant: the closed chunks are the space-joins of an ordered
partition of the processed sentences into nonempty blocks, and `current` is
the space-join of the open block (under the assumption that every sentence
is nonempty with non-whitespace ends). -/
theorem chunkFold_blocks (B : Nat) (sents : List (List Char))
    (hgood : ∀ s ∈ sents, goodEnds s) :
    ∀ (l : List (List Char)) (st : ChunkState) (bs : List (List (List Char)))
      (cb : List (List Char)),
      (∀ s ∈ l, s ∈ sents) →
      (∀ b ∈ bs, b ≠ [] ∧ ∀ s ∈ b, s ∈ sents) →
      (∀ s ∈ cb, s ∈ sents) →
      st.chunks = bs.map joinSp →
      st.current = joinSp cb →
      ∃ (bs2 : List (List (List Char))) (cb2 : List (List Char)),
        (∀ b ∈ bs2, b ≠ [] ∧ ∀ s ∈ b, s ∈ sents)
        ∧ (∀ s ∈ cb2, s ∈ sents)
        ∧ bs2.flatten ++ cb2 = bs.flatten ++ cb ++ l
        ∧ (List.foldl (chunkStep B) st l).chunks = bs2.map joinSp
        ∧ (List.foldl (chunkStep B) st l).current = joinSp cb2 := by
  intro l
  induction l with
  | nil =>
    intro st bs cb _ hbs hcb hc hcur
    exact ⟨bs, cb, hbs, hcb, by simp, hc, hcur⟩
  | cons s l' ih =>
    intro st bs cb hl hbs hcb hc hcur
    rw [List.foldl_cons]
    have hs : s ∈ sents := hl s (by simp)
    have hl' : ∀ x ∈ l', x ∈ sents := fun x hx => hl x (by simp [hx])
    by_cases hcond : (st.current ++ (if st.current ≠ [] then [' '] else []) ++ s).length > B
        ∧ st.current ≠ []
    · -- the chunk closes: `cb` becomes a finished block, `s` opens a new one
      have hstep : chunkStep B st s
          = { chunks := st.chunks ++ [trimChars st.current], current := s } := by
        simp only [chunkStep, if_pos hcond]
      have hcbne : cb ≠ [] := by
        intro hnil
        exact hcond.2 (by simp [hcur, hnil, joinSp])
      have hcbgood : goodEnds (joinSp cb) :=
        goodEnds_joinSp cb hcbne (fun x hx => hgood x (hcb x hx))
      have htrim : trimChars st.current = joinSp cb := by
        rw [hcur]; exact trim_goodEnds _ hcbgood
      rw [hstep]
      obtain ⟨bs2, cb2, p1, p2, p3, p4, p5⟩ :=
        ih ({ chunks := st.chunks ++ [trimChars st.current], current := s } : ChunkState)
          (bs ++ [cb]) [s] hl'
          (by
            intro b hb
            rcases List.mem_append.1 hb with hmem | hmem
            · exact hbs b hmem
            · have : b = cb := by simpa using hmem
              exact this ▸ ⟨hcbne, hcb⟩)
          (by intro x hx; rw [List.mem_singleton.1 hx]; exact hs)
          (by simp [hc, htrim])
          rfl
      refine ⟨bs2, cb2, p1, p2, ?_, p4, p5⟩
      rw [p3]
      simp [List.append_assoc]
    · -- the sentence is appended to the open block
      have hstep : chunkStep B st s
          = { st with current := if st.current ≠ [] then st.current ++ ' ' :: s else s } := by
        simp only [chunkStep, if_neg hcond]
      rw [hstep]
      by_cases h0 : st.current = []
      · have hcbnil : cb = [] :=
          joinSp_eq_nil cb (fun x hx => hgood x (hcb x hx)) (hcur.symm.trans h0)
        obtain ⟨bs2, cb2, p1, p2, p3, p4, p5⟩ :=
          ih ({ st with current := if st.current ≠ [] then st.current ++ ' ' :: s else s })
            bs [s] hl' hbs
            (by intro x hx; rw [List.mem_singleton.1 hx]; exact hs)
            hc
            (by rw [if_neg (by simp [h0])]; rfl)
        refine ⟨bs2, cb2, p1, p2, ?_, p4, p5⟩
        rw [p3, hcbnil]
        simp
      · have hcbne : cb ≠ [] := by
          intro hnil
          exact h0 (by simp [hcur, hnil, joinSp])
        have hjoin : joinSp (cb ++ [s]) = joinSp cb ++ ' ' :: s := by
          rw [joinSp_append cb [s] hcbne (by simp)]
          rfl
        obtain ⟨bs2, cb2, p1, p2, p3, p4, p5⟩ :=
          ih ({ st with current := if st.current ≠ [] then st.current ++ ' ' :: s else s })
            bs (cb ++ [s]) hl' hbs
            (by
              intro x hx
              rcases List.mem_append.1 hx with hmem | hmem
              · exact hcb x hmem
              · rw [List.mem_singleton.1 hmem]; exact hs)
            hc
            (by rw [if_pos h0, hcur, hjoin])
        refine ⟨bs2, cb2, p1, p2, ?_, p4, p5⟩
        rw [p3]
        simp [List.append_assoc]


/-! ## Claim theorems: text chunker -/

theorem splitTextIntoChunks_ne_nil (t : List Char) (B : Nat) :
    splitTextIntoChunks t B ≠ [] := by
  simp only [splitTextIntoChunks]
  split
  · split
    · assumption
    · simp
  · split
    · assumption
    · simp

/-- C8 counterexample: for the non-empty input " a", which contains no
terminal punctuation, the chunker returns ["a"], the trimmed input, not the
whole input " a" — the claimed single chunk equal to the whole input is
wrong whenever the input carries edge whitespace. -/
theorem C8_counterexample :
    (∀ c ∈ (" a".data : List Char), isTermChar c = false)
      ∧ (" a".data : List Char) ≠ []
      ∧ splitTextIntoChunks " a".data 300 ≠ [" a".data]
      ∧ splitTextIntoChunks " a".data 300 = ["a".data] := by
  decide

/-- C8 (amended): a non-empty input without terminal punctuation yields
exactly one chunk, namely the trimmed input (or the input itself when it
trims to nothing), and the output list is non-empty for every input. -/
theorem C8_no_punctuation_single_chunk (text : List Char) (B : Nat)
    (_hne : text ≠ []) (hterm : ∀ c ∈ text, isTermChar c = false) :
    (splitTextIntoChunks text B = [trimChars text]
      ∨ (trimChars text = [] ∧ splitTextIntoChunks text B = [text]))
    ∧ ∀ t : List Char, splitTextIntoChunks t B ≠ [] := by
  have hsent : jsSentenceSplit text = [text] := by
    simpa [jsSentenceSplit] using splitScan_no_term text [] hterm
  have hstep : chunkStep B (⟨[], []⟩ : ChunkState) text = ⟨[], text⟩ := by
    simp [chunkStep]
  have key : splitTextIntoChunks text B
      = if trimChars text ≠ [] then [trimChars text] else [text] := by
    simp only [splitTextIntoChunks, hsent, List.foldl_cons, List.foldl_nil, hstep]
    by_cases ht : trimChars text ≠ []
    · simp [ht]
    · simp [ht]
  refine ⟨?_, fun t => splitTextIntoChunks_ne_nil t B⟩
  by_cases ht : trimChars text ≠ []
  · left
    rw [key, if_pos ht]
  · right
    refine ⟨by simpa using ht, ?_⟩
    rw [key, if_neg ht]


/-- In the fallback case (no chunk pushed at all) the whole text was a
single sentence: with two or more sentences the first one ends in terminal
punctuation, which is not whitespace, so the running join cannot trim to
nothing. -/
theorem chunks_nil_single_sentence (text : List Char) (B : Nat)
    (hch : ((jsSentenceSplit text).foldl (chunkStep B) ⟨[], []⟩).chunks = [])
    (htr : trimChars ((jsSentenceSplit text).foldl (chunkStep B) ⟨[], []⟩).current = []) :
    jsSentenceSplit text = [text] := by
  cases hsp : jsSentenceSplit text with
  | nil => exact absurd hsp (splitScan_ne_nil _ _ _ _)
  | cons s0 rest =>
    cases rest with
    | nil =>
      have h1 : s0 = text := by
        have := splitScan_singleton text false [] s0
          (by simpa [jsSentenceSplit] using hsp)
        simpa using this
      rw [h1]
    | cons s1 rest2 =>
      exfalso
      have hterm := splitScan_dropLast_ends_term text false false [] (by simp)
      rw [show splitScan false false [] text = jsSentenceSplit text from rfl, hsp] at hterm
      have hs0 : ∃ pre c, s0 = pre ++ [c] ∧ isTermChar c = true := by
        apply hterm
        rw [List.dropLast_cons_of_ne_nil (by simp)]
        simp
      obtain ⟨pre, c, hs0eq, hc⟩ := hs0
      have hs0ne : s0 ≠ [] := by rw [hs0eq]; simp
      rw [hsp] at hch htr
      have hcur : (List.foldl (chunkStep B) (⟨[], []⟩ : ChunkState) (s0 :: s1 :: rest2)).current
          = List.foldl (fun cur s => if cur ≠ [] then cur ++ ' ' :: s else s) s0 (s1 :: rest2) := by
        have h := chunkFold_nil_chunks B (s0 :: s1 :: rest2) (⟨[], []⟩ : ChunkState)
          (by simpa using hch)
        rw [h, List.foldl_cons]
        have hfirst : (if ((⟨[], []⟩ : ChunkState)).current ≠ []
            then ((⟨[], []⟩ : ChunkState)).current ++ ' ' :: s0 else s0) = s0 := by simp
        rw [hfirst]
      have hpre := joinAcc_prefix (s1 :: rest2) s0 hs0ne
      have hcmem : c ∈ (List.foldl (chunkStep B)
          (⟨[], []⟩ : ChunkState) (s0 :: s1 :: rest2)).current := by
        rw [hcur]
        exact hpre.subset (by rw [hs0eq]; simp)
      have hws := trim_eq_nil_all_ws _ htr c hcmem
      rw [term_not_ws c hc] at hws
      exact Bool.false_ne_true hws

/-- C6: the chunker accumulates greedily — with a nonempty current chunk a
sentence is appended exactly when `len(current) + 1 + len(sentence) ≤ B`
and otherwise closes the chunk and opens a new one with the sentence — and
consequently every output chunk is within the bound or is a single
(possibly trimmed) sentence of the split, never truncated or dropped. -/
theorem C6_greedy_accumulation (B : Nat) :
    (∀ (st : ChunkState) (s : List Char), st.current ≠ [] →
      chunkStep B st s =
        if st.current.length + 1 + s.length ≤ B then
          { chunks := st.chunks, current := st.current ++ ' ' :: s }
        else
          { chunks := st.chunks ++ [trimChars st.current], current := s })
    ∧ ∀ text chunk : List Char, chunk ∈ splitTextIntoChunks text B →
        chunk.length ≤ B
          ∨ ∃ s ∈ jsSentenceSplit text, chunk = trimChars s ∨ chunk = s := by
  constructor
  · intro st s h0
    have hlen : (st.current ++ (if st.current ≠ [] then [' '] else []) ++ s).length
        = st.current.length + 1 + s.length := by
      rw [if_pos h0]
      simp only [List.length_append, List.length_cons, List.length_nil]
    by_cases hle : st.current.length + 1 + s.length ≤ B
    · rw [if_pos hle]
      simp only [chunkStep]
      rw [if_neg (by intro hand; rw [hlen] at hand; omega), if_pos h0]
    · rw [if_neg hle]
      simp only [chunkStep]
      rw [if_pos ⟨by rw [hlen]; omega, h0⟩]
  · intro text chunk hmem
    have hmain := chunkFold_bound B (jsSentenceSplit text) (jsSentenceSplit text)
      (⟨[], []⟩ : ChunkState) (fun s h => h) (by simp) (by simp)
    simp only [splitTextIntoChunks] at hmem
    by_cases htr : trimChars ((jsSentenceSplit text).foldl (chunkStep B) ⟨[], []⟩).current ≠ []
    · rw [if_pos htr, if_pos (by simp)] at hmem
      rcases List.mem_append.1 hmem with hm | hm
      · rcases hmain.1 chunk hm with hle | ⟨s, hsmem, heq⟩
        · exact Or.inl hle
        · exact Or.inr ⟨s, hsmem, Or.inl heq⟩
      · have hchunk : chunk
            = trimChars ((jsSentenceSplit text).foldl (chunkStep B) ⟨[], []⟩).current := by
          simpa using hm
        rcases hmain.2 with hc0 | hcl | hcs
        · exact absurd (by rw [hc0]; rfl) htr
        · exact Or.inl (hchunk ▸ le_trans (trim_length_le _) hcl)
        · exact Or.inr ⟨_, hcs, Or.inl hchunk⟩
    · rw [if_neg htr] at hmem
      by_cases hch : ((jsSentenceSplit text).foldl (chunkStep B) ⟨[], []⟩).chunks = []
      · rw [if_neg (by simpa using hch)] at hmem
        have hchunk : chunk = text := by simpa using hmem
        have hsent := chunks_nil_single_sentence text B hch (by simpa using htr)
        exact Or.inr ⟨text, by rw [hsent]; simp, Or.inr hchunk⟩
      · rw [if_pos hch] at hmem
        rcases hmain.1 chunk hmem with hle | ⟨s, hsmem, heq⟩
        · exact Or.inl hle
        · exact Or.inr ⟨s, hsmem, Or.inl heq⟩

/-- C6 witness: a concrete application of the greedy step and of the bound
property at the two-sentence text "Hi. Yo.". -/
theorem C6_witness :
    ((("Hi.".data : List Char) ≠ []) ∧ chunkStep 300 ⟨[], "Hi.".data⟩ "Yo.".data
        = { chunks := [], current := "Hi.".data ++ ' ' :: "Yo.".data })
    ∧ ("Hi. Yo.".data.length ≤ 300
        ∨ ∃ s ∈ jsSentenceSplit "Hi. Yo.".data,
            ("Hi. Yo.".data : List Char) = trimChars s ∨ "Hi. Yo.".data = s) := by
  refine ⟨⟨by decide, ?_⟩, ?_⟩
  · rw [(C6_greedy_accumulation 300).1 ⟨[], "Hi.".data⟩ "Yo.".data (by decide),
      if_pos (by decide)]
  · exact (C6_greedy_accumulation 300).2 "Hi. Yo.".data "Hi. Yo.".data (by decide)

/-- C7 counterexample: the chunker collapses the double space of "A.  B."
to a single joining space, so the space-join of the chunks does not
reconstruct the source text. -/
theorem C7_counterexample :
    joinSp (splitTextIntoChunks "A.  B.".data 300) ≠ "A.  B.".data
      ∧ splitTextIntoChunks "A.  B.".data 300 = ["A. B.".data] := by
  decide

/-- C7 (amended): when every sentence of the split is nonempty with
non-whitespace first and last characters, the space-join of the chunks
equals the space-join of the sentence sequence (so the round trip holds
exactly when the text is that normalised join), and the chunks are the
space-joins of an ordered partition of the sentences into nonempty blocks —
no sentence is ever split across chunks. -/
theorem C7_normalized_roundtrip (text : List Char) (B : Nat)
    (hgood : ∀ s ∈ jsSentenceSplit text, goodEnds s) :
    joinSp (splitTextIntoChunks text B) = joinSp (jsSentenceSplit text)
    ∧ (text = joinSp (jsSentenceSplit text) → joinSp (splitTextIntoChunks text B) = text)
    ∧ ∃ blocks : List (List (List Char)),
        (∀ b ∈ blocks, b ≠ [])
          ∧ blocks.flatten = jsSentenceSplit text
          ∧ splitTextIntoChunks text B = blocks.map joinSp := by
  obtain ⟨bs2, cb2, p1, p2, p3, p4, p5⟩ :=
    chunkFold_blocks B (jsSentenceSplit text) hgood (jsSentenceSplit text)
      (⟨[], []⟩ : ChunkState) [] [] (fun s h => h) (by simp) (by simp) (by simp) rfl
  simp only [List.flatten_nil, List.nil_append] at p3
  have hsplit : ∃ blocks : List (List (List Char)),
      (∀ b ∈ blocks, b ≠ []) ∧ blocks.flatten = jsSentenceSplit text
        ∧ splitTextIntoChunks text B = blocks.map joinSp := by
    by_cases hcb : cb2 = []
    · have hcur : ((jsSentenceSplit text).foldl (chunkStep B) ⟨[], []⟩).current = [] := by
        rw [p5, hcb]
        rfl
      have hflat : bs2.flatten = jsSentenceSplit text := by
        rw [← p3, hcb]
        simp
      have hbs2ne : bs2 ≠ [] := by
        intro h0
        rw [h0] at hflat
        simp only [List.flatten_nil] at hflat
        exact splitScan_ne_nil text false false [] hflat.symm
      refine ⟨bs2, fun b hb => (p1 b hb).1, hflat, ?_⟩
      have h1 : ¬(trimChars ((jsSentenceSplit text).foldl (chunkStep B) ⟨[], []⟩).current ≠ []) := by
        rw [hcur]
        simp [trimChars]
      have h2 : ((jsSentenceSplit text).foldl (chunkStep B) ⟨[], []⟩).chunks ≠ [] := by
        rw [p4]
        simpa using hbs2ne
      simp only [splitTextIntoChunks]
      rw [if_neg h1, if_pos h2]
      exact p4
    · have hgoodj : goodEnds (joinSp cb2) :=
        goodEnds_joinSp cb2 hcb (fun x hx => hgood x (p2 x hx))
      have htr : trimChars ((jsSentenceSplit text).foldl (chunkStep B) ⟨[], []⟩).current
          = joinSp cb2 := by
        rw [p5]
        exact trim_goodEnds _ hgoodj
      refine ⟨bs2 ++ [cb2], ?_, by simpa using p3, ?_⟩
      · intro b hb
        rcases List.mem_append.1 hb with hm | hm
        · exact (p1 b hm).1
        · rw [List.mem_singleton.1 hm]
          exact hcb
      · have h1 : trimChars ((jsSentenceSplit text).foldl (chunkStep B) ⟨[], []⟩).current ≠ [] := by
          rw [htr]
          exact hgoodj.1
        have h2 : ((jsSentenceSplit text).foldl (chunkStep B) ⟨[], []⟩).chunks
            ++ [trimChars ((jsSentenceSplit text).foldl (chunkStep B) ⟨[], []⟩).current] ≠ [] := by
          simp
        simp only [splitTextIntoChunks]
        rw [if_pos h1, if_pos h2]
        rw [p4, htr, List.map_append]
        rfl
  obtain ⟨blocks, hb1, hb2, hb3⟩ := hsplit
  have hjoin : joinSp (splitTextIntoChunks text B) = joinSp (jsSentenceSplit text) := by
    rw [hb3, joinSp_blocks blocks hb1, hb2]
  exact ⟨hjoin, fun ht => by rw [hjoin, ← ht], blocks, hb1, hb2, hb3⟩

/-- C7 witness: the amended round trip at the normalised text "Hi. Yo.". -/
theorem C7_witness :
    (∀ s ∈ jsSentenceSplit "Hi. Yo.".data, goodEnds s)
    ∧ joinSp (splitTextIntoChunks "Hi. Yo.".data 300)
        = joinSp (jsSentenceSplit "Hi. Yo.".data) := by
  have hg : ∀ s ∈ jsSentenceSplit "Hi. Yo.".data, goodEnds s := by decide
  exact ⟨hg, (C7_normalized_roundtrip "Hi. Yo.".data 300 hg).1⟩

/-- C8 witness: the amended single-chunk property at "Hello". -/
theorem C8_witness :
    ((("Hello".data : List Char) ≠ [])
        ∧ ∀ c ∈ ("Hello".data : List Char), isTermChar c = false)
    ∧ (splitTextIntoChunks "Hello".data 300 = [trimChars "Hello".data]
        ∨ (trimChars "Hello".data = []
            ∧ splitTextIntoChunks "Hello".data 300 = ["Hello".data])) := by
  refine ⟨⟨by decide, by decide⟩, ?_⟩
  exact (C8_no_punctuation_single_chunk "Hello".data 300 (by decide) (by decide)).1

/-! ## Claim theorems: sanitizer and speed slider -/

/-- C9 counterexample: a failed process whose entire output is the single
line "FutureWarning: x" has that sole line stripped — the sanitized text is
empty and the stored failure message carries no diagnostic tail, so the
claimed single-line protection does not exist in the code. -/
theorem C9_counterexample :
    splitLinesJs "FutureWarning: x".data = ["FutureWarning: x".data]
      ∧ isNoisyLine "FutureWarning: x".data = true
      ∧ sanitizeCliOutput "FutureWarning: x".data = []
      ∧ ttsCloseMessage (some 1) "FutureWarning: x".data = "tts_cli exited 1".data := by
  decide

/-- C9 (amended): the sanitizer strips known-benign diagnostic lines
unconditionally — when the failed process's output is one single noisy
line, the sanitized text is empty and the close-handler failure message
consists of the exit-code text alone, with no diagnostic tail. -/
theorem C9_sole_line_stripped (raw : List Char) (code : Option Int)
    (hline : splitLinesJs raw = [raw]) (hnoisy : isNoisyLine raw = true) :
    sanitizeCliOutput raw = []
      ∧ ttsCloseMessage code raw =
          (if jsCodeString code = "3221225477" then
            "tts_cli encountered an access violation (0xC0000005). Try shorter text and ensure sufficient memory".data
          else "tts_cli exited ".data ++ (jsCodeString code).data) := by
  have hsan : sanitizeCliOutput raw = [] := by
    simp only [sanitizeCliOutput, hline]
    simp [hnoisy, trimChars, List.intercalate]
  refine ⟨hsan, ?_⟩
  simp only [ttsCloseMessage, hsan]
  split <;> simp

/-- C9 witness: the amended single-noisy-line property at an accelerator
noise line. -/
theorem C9_witness :
    (splitLinesJs "OMP: noise".data = ["OMP: noise".data]
      ∧ isNoisyLine "OMP: noise".data = true)
    ∧ sanitizeCliOutput "OMP: noise".data = [] := by
  refine ⟨⟨by decide, by decide⟩, ?_⟩
  exact (C9_sole_line_stripped "OMP: noise".data (some 2) (by decide) (by decide)).1

/-- C10: for every input — undefined, null, NaN, infinities, or any finite
number — the atempo factor lies in [0.5, 1.0], so the speed-adjustment
stage can only slow audio down or leave it unchanged; non-finite inputs
default to 0.7 and map to 0.85. -/
theorem C10_atempo_range (v : JsNum) :
    1/2 ≤ sliderToAtempo v ∧ sliderToAtempo v ≤ 1
      ∧ (jsIsFinite v = false → sliderToAtempo v = 17/20) := by
  have hrange : ∀ raw : ℚ,
      1/2 ≤ 1/2 + (1/2) * (max 0 (min 1 raw))
        ∧ 1/2 + (1/2) * (max 0 (min 1 raw)) ≤ 1 := by
    intro raw
    have h0 : (0 : ℚ) ≤ max 0 (min 1 raw) := le_max_left 0 _
    have h1 : max 0 (min 1 raw) ≤ 1 := max_le (by norm_num) (min_le_left 1 raw)
    constructor <;> nlinarith
  have hdef : max (0 : ℚ) (min 1 (7/10)) = 7/10 := by
    norm_num [min_def, max_def]
  cases v with
  | fin q =>
    refine ⟨(hrange q).1, (hrange q).2, ?_⟩
    intro h
    simp [jsIsFinite] at h
  | undef =>
    exact ⟨(hrange (7/10)).1, (hrange (7/10)).2,
      fun _ => by rw [show sliderToAtempo JsNum.undef
        = 1/2 + (1/2) * (max 0 (min 1 (7/10 : ℚ))) from rfl, hdef]; norm_num⟩
  | nullv =>
    exact ⟨(hrange (7/10)).1, (hrange (7/10)).2,
      fun _ => by rw [show sliderToAtempo JsNum.nullv
        = 1/2 + (1/2) * (max 0 (min 1 (7/10 : ℚ))) from rfl, hdef]; norm_num⟩
  | nan =>
    exact ⟨(hrange (7/10)).1, (hrange (7/10)).2,
      fun _ => by rw [show sliderToAtempo JsNum.nan
        = 1/2 + (1/2) * (max 0 (min 1 (7/10 : ℚ))) from rfl, hdef]; norm_num⟩
  | posInf =>
    exact ⟨(hrange (7/10)).1, (hrange (7/10)).2,
      fun _ => by rw [show sliderToAtempo JsNum.posInf
        = 1/2 + (1/2) * (max 0 (min 1 (7/10 : ℚ))) from rfl, hdef]; norm_num⟩
  | negInf =>
    exact ⟨(hrange (7/10)).1, (hrange (7/10)).2,
      fun _ => by rw [show sliderToAtempo JsNum.negInf
        = 1/2 + (1/2) * (max 0 (min 1 (7/10 : ℚ))) from rfl, hdef]; norm_num⟩

/-- C10 witness: the NaN input, whose factor is exactly 0.85. -/
theorem C10_witness :
    (1/2 ≤ sliderToAtempo JsNum.nan ∧ sliderToAtempo JsNum.nan ≤ 1
      ∧ (jsIsFinite JsNum.nan = false → sliderToAtempo JsNum.nan = 17/20))
    ∧ sliderToAtempo JsNum.nan = 17/20 := by
  have h := C10_atempo_range JsNum.nan
  exact ⟨h, h.2.2 rfl⟩

/-! ## Lemmas about the pipeline trace -/

theorem emitList_append (j : JobRec) (ps1 ps2 : List JobPatch) :
    emitList j (ps1 ++ ps2)
      = emitList j ps1 ++ emitList (List.foldl applyPatch j ps1) ps2 := by
  induction ps1 generalizing j with
  | nil => simp [emitList]
  | cons p ps ih => simp [emitList, ih]

theorem emitList_status_none (ps : List JobPatch)
    (h : ∀ p ∈ ps, p.status = none) :
    ∀ j : JobRec, (∀ r ∈ emitList j ps, r.status = j.status)
      ∧ (List.foldl applyPatch j ps).status = j.status := by
  induction ps with
  | nil => intro j; simp [emitList]
  | cons p ps ih =>
    intro j
    have hp : p.status = none := h p (by simp)
    have hstat : (applyPatch j p).status = j.status := by
      simp [applyPatch, hp]
    have ihj := ih (fun q hq => h q (by simp [hq])) (applyPatch j p)
    constructor
    · intro r hr
      rcases List.mem_cons.1 hr with hr | hr
      · rw [hr, hstat]
      · rw [ihj.1 r hr, hstat]
    · rw [List.foldl_cons, ihj.2, hstat]

theorem emitList_map_progress (ps : List JobPatch)
    (h : ∀ p ∈ ps, p.progress ≠ none) :
    ∀ j : JobRec, (emitList j ps).map (fun r => r.progress)
      = ps.map (fun p => p.progress.getD 0) := by
  induction ps with
  | nil => intro j; simp [emitList]
  | cons p ps ih =>
    intro j
    cases hp : p.progress with
    | none => exact absurd hp (h p (by simp))
    | some v =>
      have hv : (applyPatch j p).progress = v := by simp [applyPatch, hp]
      simp only [emitList, List.map_cons, hv, hp,
        ih (fun q hq => h q (by simp [hq])) (applyPatch j p), Option.getD_some]

theorem emitList_map_stageProg (ps : List JobPatch)
    (h : ∀ p ∈ ps, p.stage ≠ none ∧ p.progress ≠ none) :
    ∀ j : JobRec, (emitList j ps).map (fun r => (r.stage, r.progress))
      = ps.map (fun p => (p.stage.getD "", p.progress.getD 0)) := by
  induction ps with
  | nil => intro j; simp [emitList]
  | cons p ps ih =>
    intro j
    cases hps : p.stage with
    | none => exact absurd hps (h p (by simp)).1
    | some st =>
      cases hpp : p.progress with
      | none => exact absurd hpp (h p (by simp)).2
      | some v =>
        have h1 : (applyPatch j p).stage = st := by simp [applyPatch, hps]
        have h2 : (applyPatch j p).progress = v := by simp [applyPatch, hpp]
        simp only [emitList, List.map_cons, h1, h2, hps, hpp,
          ih (fun q hq => h q (by simp [hq])) (applyPatch j p), Option.getD_some]

/-! ## Lemmas about sortedLE -/

theorem sortedLE_cons_iff (a : Int) (l : List Int) :
    sortedLE (a :: l) = true
      ↔ (∀ b, l.head? = some b → a ≤ b) ∧ sortedLE l = true := by
  cases l with
  | nil => simp [sortedLE]
  | cons b t => simp [sortedLE]

theorem sortedLE_append (l1 l2 : List Int) (h1 : sortedLE l1 = true)
    (h2 : sortedLE l2 = true)
    (hb : ∀ a, l1.getLast? = some a → ∀ b, l2.head? = some b → a ≤ b) :
    sortedLE (l1 ++ l2) = true := by
  induction l1 with
  | nil => simpa using h2
  | cons x xs ih =>
    rw [List.cons_append]
    rcases (sortedLE_cons_iff x xs).1 h1 with ⟨hx, hxs⟩
    cases xs with
    | nil =>
      refine (sortedLE_cons_iff x l2).2 ⟨?_, h2⟩
      intro b hbb
      exact hb x rfl b hbb
    | cons y ys =>
      have hys := ih hxs (by
        intro a ha b hbb
        exact hb a (by rw [List.getLast?_cons_cons]; exact ha) b hbb)
      refine (sortedLE_cons_iff x ((y :: ys) ++ l2)).2 ⟨?_, hys⟩
      intro b hbb
      simp only [List.cons_append, List.head?_cons, Option.some.injEq] at hbb
      rw [← hbb]
      exact hx y rfl

theorem sortedLE_map_range (f : Nat → Int) (mono : ∀ i, f i ≤ f (i + 1)) :
    ∀ m, sortedLE ((List.range m).map f) = true := by
  intro m
  induction m with
  | zero => rfl
  | succ n ih =>
    rw [List.range_succ, List.map_append]
    refine sortedLE_append _ _ ih (by simp [sortedLE]) ?_
    intro a ha b hbb
    simp only [List.map_cons, List.map_nil, List.head?_cons, Option.some.injEq] at hbb
    cases n with
    | zero => simp at ha
    | succ k =>
      rw [List.range_succ, List.map_append] at ha
      simp only [List.map_cons, List.map_nil] at ha
      rw [List.getLast?_concat] at ha
      have haa : a = f k := by simpa using ha.symm
      rw [haa, ← hbb]
      exact mono k

/-- The progress value written before synthesising chunk `i` of `n`. -/
def chunkProg (n i : Nat) : Int :=
  ((30 + (i * 30) / (max 1 n) : Nat) : Int)

theorem chunkProg_mono (n i : Nat) : chunkProg n i ≤ chunkProg n (i + 1) := by
  simp only [chunkProg]
  have h := Nat.div_le_div_right (c := max 1 n) (by omega : i * 30 ≤ (i + 1) * 30)
  exact_mod_cast Nat.add_le_add_left h 30

theorem chunkProg_zero (n : Nat) : chunkProg n 0 = 30 := by
  simp [chunkProg]

theorem chunkProg_le59 (n i : Nat) (hi : i < n) : chunkProg n i ≤ 59 := by
  simp only [chunkProg]
  have hn : 0 < n := by omega
  have hmax : max 1 n = n := by omega
  rw [hmax]
  have hd : i * 30 / n < 30 := by
    rw [Nat.div_lt_iff_lt_mul hn]
    omega
  have : 30 + i * 30 / n ≤ 59 := by omega
  exact_mod_cast this

theorem chunkProg_le58 (n i : Nat) (hi : i < n) (hn29 : n ≤ 29) :
    chunkProg n i ≤ 58 := by
  simp only [chunkProg]
  have hn : 0 < n := by omega
  have hmax : max 1 n = n := by omega
  rw [hmax]
  have hd : i * 30 / n < 29 := by
    rw [Nat.div_lt_iff_lt_mul hn]
    omega
  have : 30 + i * 30 / n ≤ 58 := by omega
  exact_mod_cast this

theorem chunkProg_ne100 (n i : Nat) (hi : i < n) : chunkProg n i ≠ 100 := by
  have := chunkProg_le59 n i hi
  omega

theorem chunkPatches_map_progress (n m : Nat) :
    (chunkPatches n m).map (fun p => p.progress.getD 0)
      = (List.range m).map (chunkProg n) := by
  simp only [chunkPatches, List.map_map]
  rfl

/-- The shape shared by every run: the patch list is a status-free prefix
followed by one terminal patch.  The processing-progress list is then the
creation record's 0 followed by the prefix's progress values, every record
satisfies the terminal/progress discipline, and the last record written is
the terminal one. -/
theorem trace_analysis (env : PipelineEnv) (qs : List JobPatch) (t : JobPatch)
    (hsplit : pipelinePatches env = qs ++ [t])
    (hq : ∀ p ∈ qs, p.status = none ∧ p.progress ≠ none)
    (ht : (t.status = some "failed" ∧ t.progress = some (-1))
        ∨ (t.status = some "completed" ∧ t.progress = some 100)) :
    processingProgress env = 0 :: qs.map (fun p => p.progress.getD 0)
    ∧ (∀ r ∈ pipelineTrace env,
        (r.status = "completed" → r.progress = 100)
        ∧ (r.status = "failed" → r.progress = -1)
        ∧ (r.status = "processing" →
            r.progress ∈ (0 : Int) :: qs.map (fun p => p.progress.getD 0)))
    ∧ (pipelineTrace env).getLast?
        = some (applyPatch (List.foldl applyPatch (initRec env) qs) t) := by
  have hqs := emitList_status_none qs (fun p hp => (hq p hp).1) (initRec env)
  have htrace : pipelineTrace env
      = initRec env :: (emitList (initRec env) qs
          ++ [applyPatch (List.foldl applyPatch (initRec env) qs) t]) := by
    simp only [pipelineTrace, hsplit, emitList_append]
    rfl
  set J := List.foldl applyPatch (initRec env) qs with hJ
  set F := applyPatch J t with hF
  have hFstat : F.status = "failed" ∨ F.status = "completed" := by
    rcases ht with ⟨h1, _⟩ | ⟨h1, _⟩
    · left
      simp [hF, applyPatch, h1]
    · right
      simp [hF, applyPatch, h1]
  refine ⟨?_, ?_, ?_⟩
  · rw [processingProgress, htrace]
    have hfilter : (initRec env :: (emitList (initRec env) qs ++ [F])).filter
        (fun r => decide (r.status = "processing"))
        = initRec env :: emitList (initRec env) qs := by
      rw [List.filter_cons_of_pos (by simp [initRec])]
      rw [List.filter_append]
      rw [List.filter_eq_self.2 (by
        intro r hr
        rw [hqs.1 r hr]
        simp [initRec])]
      rw [show List.filter (fun r => decide (r.status = "processing")) [F] = [] from by
        rcases hFstat with h | h <;> simp [h]]
      simp
    rw [hfilter, List.map_cons,
      emitList_map_progress qs (fun p hp => (hq p hp).2) (initRec env)]
    rfl
  · intro r hr
    rw [htrace] at hr
    rcases List.mem_cons.1 hr with hr | hr
    · subst hr
      refine ⟨fun h => absurd h (by simp [initRec]), fun h => absurd h (by simp [initRec]), fun _ => ?_⟩
      simp [initRec]
    · rcases List.mem_append.1 hr with hr | hr
      · have hst : r.status = "processing" := by
          rw [hqs.1 r hr]
          rfl
        refine ⟨fun h => absurd h (by rw [hst]; decide),
          fun h => absurd h (by rw [hst]; decide), fun _ => ?_⟩
        have hmem : r.progress ∈ (emitList (initRec env) qs).map (fun r => r.progress) :=
          List.mem_map_of_mem _ hr
        rw [emitList_map_progress qs (fun p hp => (hq p hp).2) (initRec env)] at hmem
        exact List.mem_cons_of_mem _ hmem
      · have hrF : r = F := by simpa using hr
        subst hrF
        rcases ht with ⟨h1, h2⟩ | ⟨h1, h2⟩
        · have hs : F.status = "failed" := by simp [hF, applyPatch, h1]
          have hp : F.progress = -1 := by simp [hF, applyPatch, h2]
          exact ⟨fun h => absurd h (by rw [hs]; decide), fun _ => hp,
            fun h => absurd h (by rw [hs]; decide)⟩
        · have hs : F.status = "completed" := by simp [hF, applyPatch, h1]
          have hp : F.progress = 100 := by simp [hF, applyPatch, h2]
          exact ⟨fun _ => hp, fun h => absurd h (by rw [hs]; decide),
            fun h => absurd h (by rw [hs]; decide)⟩
  · rw [htrace, ← List.cons_append, List.getLast?_concat]

/-- The prefix of updates shared by every run that reaches synthesis:
`saving_file`, the conversion phase, the generation preamble, and the first
`m` chunk updates. -/
def stdPrefix (env : PipelineEnv) (m : Nat) : List JobPatch :=
  [savingPatch env] ++ convertPatches env ++ [genPrepPatch]
    ++ chunkPatches env.chunkCount m

theorem stdPrefix_fields (env : PipelineEnv) (m : Nat) :
    ∀ p ∈ stdPrefix env m, p.status = none ∧ p.progress ≠ none := by
  intro p hp
  simp only [stdPrefix, List.append_assoc, List.mem_append, List.mem_singleton] at hp
  rcases hp with h | h | h | h
  · subst h
    exact ⟨rfl, by simp [savingPatch]⟩
  · cases hb : env.isPdf <;> simp [convertPatches, hb] at h <;>
      rcases h with h | h <;> subst h <;>
      exact ⟨rfl, by simp [convertingPdfPatch, convertedPdfPatch,
        convertingTxtPatch, convertedTxtPatch]⟩
  · subst h
    exact ⟨rfl, by simp [genPrepPatch]⟩
  · simp only [chunkPatches, List.mem_map] at h
    obtain ⟨i, _, h⟩ := h
    subst h
    exact ⟨rfl, by simp [genChunkPatch]⟩

theorem stdPrefix_map (env : PipelineEnv) (m : Nat) :
    (stdPrefix env m).map (fun p => p.progress.getD 0)
      = [5, 10, 30, 30] ++ (List.range m).map (chunkProg env.chunkCount) := by
  simp only [stdPrefix, List.map_append, chunkPatches_map_progress]
  cases h : env.isPdf <;>
    simp [convertPatches, savingPatch, genPrepPatch, h, genChunkPatch, chunkProg,
      convertingPdfPatch, convertedPdfPatch, convertingTxtPatch, convertedTxtPatch]

theorem sortedLE_std (n m : Nat) (hm1 : 1 ≤ m) (hmn : m ≤ n) (hn29 : n ≤ 29)
    (tail : List Int) (htail : sortedLE tail = true)
    (hth : ∀ b, tail.head? = some b → (58 : Int) ≤ b) :
    sortedLE ((0 : Int) :: ([5, 10, 30, 30]
      ++ ((List.range m).map (chunkProg n) ++ tail))) = true := by
  have hre : (0 : Int) :: ([5, 10, 30, 30]
      ++ ((List.range m).map (chunkProg n) ++ tail))
      = [0, 5, 10, 30, 30] ++ ((List.range m).map (chunkProg n) ++ tail) := by
    simp
  rw [hre]
  apply sortedLE_append
  · decide
  · apply sortedLE_append
    · exact sortedLE_map_range _ (chunkProg_mono n) m
    · exact htail
    · intro a ha b hbb
      cases m with
      | zero => omega
      | succ k =>
        rw [List.range_succ, List.map_append] at ha
        simp only [List.map_cons, List.map_nil] at ha
        rw [List.getLast?_concat] at ha
        have haa : a = chunkProg n k := by simpa using ha.symm
        rw [haa]
        exact le_trans (chunkProg_le58 n k (by omega) hn29) (hth b hbb)
  · intro a ha b hbb
    have hla : ([0, 5, 10, 30, 30] : List Int).getLast? = some 30 := by decide
    rw [hla] at ha
    have haa : a = 30 := by simpa using ha.symm
    cases m with
    | zero => omega
    | succ k =>
      have hhead : (((List.range (k + 1)).map (chunkProg n)) ++ tail).head?
          = some (chunkProg n 0) := by
        rw [List.range_succ_eq_map]
        simp
      rw [hhead] at hbb
      have hbb2 : b = chunkProg n 0 := by simpa using hbb.symm
      rw [haa, hbb2, chunkProg_zero]

theorem std_ne100 (n m : Nat) (hmn : m ≤ n) (tail : List Int)
    (htail : ∀ v ∈ tail, v ≠ (100 : Int)) :
    ∀ v ∈ (0 : Int) :: ([5, 10, 30, 30]
      ++ ((List.range m).map (chunkProg n) ++ tail)), v ≠ 100 := by
  intro v hv
  simp only [List.mem_cons, List.mem_append, List.mem_map, List.mem_range] at hv
  rcases hv with h | h | ⟨i, hi, h⟩ | h
  · omega
  · rcases h with h | h | h | h | h
    · omega
    · omega
    · omega
    · omega
    · simp at h
  · rw [← h]
    exact chunkProg_ne100 n i (by omega)
  · exact htail v h

/-- One standard run shape: a `stdPrefix`, some status-free late patches,
and one terminal patch.  Bundles the monotonicity and the terminal
discipline for such a run. -/
theorem c1_std_case (env : PipelineEnv) (m : Nat) (tailPs : List JobPatch)
    (t : JobPatch) (hm1 : 1 ≤ m) (hmn : m ≤ env.chunkCount)
    (hsplit : pipelinePatches env = (stdPrefix env m ++ tailPs) ++ [t])
    (htail_fields : ∀ p ∈ tailPs, p.status = none ∧ p.progress ≠ none)
    (ht : (t.status = some "failed" ∧ t.progress = some (-1))
        ∨ (t.status = some "completed" ∧ t.progress = some 100))
    (TL : List Int)
    (hTL : tailPs.map (fun p => p.progress.getD 0) = TL)
    (hTLsorted : sortedLE TL = true)
    (hTLhead : ∀ b, TL.head? = some b → (58 : Int) ≤ b)
    (hTL100 : ∀ v ∈ TL, v ≠ (100 : Int)) :
    (env.chunkCount ≤ 29 → sortedLE (processingProgress env) = true)
    ∧ ∀ r ∈ pipelineTrace env,
        (r.status = "completed" → r.progress = 100)
        ∧ (r.status = "failed" → r.progress = -1)
        ∧ (r.status = "processing" → r.progress ≠ 100) := by
  have hfields : ∀ p ∈ stdPrefix env m ++ tailPs, p.status = none ∧ p.progress ≠ none := by
    intro p hp
    rcases List.mem_append.1 hp with h | h
    · exact stdPrefix_fields env m p h
    · exact htail_fields p h
  obtain ⟨hproc, hmem, _⟩ := trace_analysis env _ t hsplit hfields ht
  have hQSmap : ((0 : Int) :: (stdPrefix env m ++ tailPs).map (fun p => p.progress.getD 0))
      = (0 : Int) :: ([5, 10, 30, 30]
          ++ ((List.range m).map (chunkProg env.chunkCount) ++ TL)) := by
    rw [List.map_append, stdPrefix_map, hTL]
    simp [List.append_assoc]
  constructor
  · intro hn29
    rw [hproc, hQSmap]
    exact sortedLE_std env.chunkCount m hm1 hmn hn29 TL hTLsorted hTLhead
  · intro r hr
    obtain ⟨h1, h2, h3⟩ := hmem r hr
    refine ⟨h1, h2, fun hp => ?_⟩
    have hmemv := h3 hp
    rw [hQSmap] at hmemv
    exact std_ne100 env.chunkCount m hmn TL hTL100 r.progress hmemv

/-- C1 counterexample: a successful 30-chunk TXT run writes the processing
progress values ending in …, 59 (last `generating_audio` update,
30 + floor((29/30)·30)) and then 58 (`combining_audio`), so the progress
sequence while status=processing is not non-decreasing. -/
theorem C1_counterexample :
    sortedLE (processingProgress
      ⟨false, false, 30, "T", 70, none, "boom", false⟩) = false := by
  decide

/-- C1 (amended): while status=processing the progress sequence is
non-decreasing provided the run has at most 29 synthesis chunks (with 30 or
more, the last generating_audio update 30 + floor(((N−1)/N)·30) ≥ 59
exceeds the combining_audio update at 58); and unconditionally, in every
run a completed record has progress 100, a failed record has progress −1,
and a record with status=processing never has progress 100. -/
theorem C1_progress_monotonic (env : PipelineEnv) (hwf : env.wf) :
    (env.chunkCount ≤ 29 → sortedLE (processingProgress env) = true)
    ∧ ∀ r ∈ pipelineTrace env,
        (r.status = "completed" → r.progress = 100)
        ∧ (r.status = "failed" → r.progress = -1)
        ∧ (r.status = "processing" → r.progress ≠ 100) := by
  obtain ⟨hn1, hpdf, htts, hadj⟩ := hwf
  rcases hfa : env.failAt with _ | fp
  · cases hvc : env.voiceCloning <;> cases hw : env.whisperFails
    · refine c1_std_case env env.chunkCount
        [combinePatch, adjustPatch env, transcribingPatch, transcribedPatch,
          finalizingPatch] (completedPatch env) hn1 le_rfl
        (by simp [pipelinePatches, hfa, stdPrefix, hvc, hw, List.append_assoc])
        ?_ (Or.inr ⟨rfl, rfl⟩) [58, 60, 60, 90, 95]
        (by simp [combinePatch, adjustPatch, transcribingPatch,
          transcribedPatch, finalizingPatch])
        (by decide) (by intro b hb; simp at hb; omega) (by decide)
      intro p hp
      simp only [List.mem_cons, List.not_mem_nil, or_false] at hp
      rcases hp with h | h | h | h | h <;> subst h <;>
        exact ⟨rfl, by simp [combinePatch, adjustPatch, transcribingPatch,
          transcribedPatch, finalizingPatch]⟩
    · refine c1_std_case env env.chunkCount
        [combinePatch, adjustPatch env, transcribingPatch, finalizingPatch]
        (completedPatch env) hn1 le_rfl
        (by simp [pipelinePatches, hfa, stdPrefix, hvc, hw, List.append_assoc])
        ?_ (Or.inr ⟨rfl, rfl⟩) [58, 60, 60, 95]
        (by simp [combinePatch, adjustPatch, transcribingPatch, finalizingPatch])
        (by decide) (by intro b hb; simp at hb; omega) (by decide)
      intro p hp
      simp only [List.mem_cons, List.not_mem_nil, or_false] at hp
      rcases hp with h | h | h | h <;> subst h <;>
        exact ⟨rfl, by simp [combinePatch, adjustPatch, transcribingPatch,
          finalizingPatch]⟩
    · refine c1_std_case env env.chunkCount
        [combinePatch, transcribingPatch, transcribedPatch, finalizingPatch]
        (completedPatch env) hn1 le_rfl
        (by simp [pipelinePatches, hfa, stdPrefix, hvc, hw, List.append_assoc])
        ?_ (Or.inr ⟨rfl, rfl⟩) [58, 60, 90, 95]
        (by simp [combinePatch, transcribingPatch, transcribedPatch,
          finalizingPatch])
        (by decide) (by intro b hb; simp at hb; omega) (by decide)
      intro p hp
      simp only [List.mem_cons, List.not_mem_nil, or_false] at hp
      rcases hp with h | h | h | h <;> subst h <;>
        exact ⟨rfl, by simp [combinePatch, transcribingPatch, transcribedPatch,
          finalizingPatch]⟩
    · refine c1_std_case env env.chunkCount
        [combinePatch, transcribingPatch, finalizingPatch]
        (completedPatch env) hn1 le_rfl
        (by simp [pipelinePatches, hfa, stdPrefix, hvc, hw, List.append_assoc])
        ?_ (Or.inr ⟨rfl, rfl⟩) [58, 60, 95]
        (by simp [combinePatch, transcribingPatch, finalizingPatch])
        (by decide) (by intro b hb; simp at hb; omega) (by decide)
      intro p hp
      simp only [List.mem_cons, List.not_mem_nil, or_false] at hp
      rcases hp with h | h | h <;> subst h <;>
        exact ⟨rfl, by simp [combinePatch, transcribingPatch, finalizingPatch]⟩
  · cases fp with
    | saveFile =>
      obtain ⟨hproc, hmem, _⟩ := trace_analysis env [savingPatch env]
        (failedPatch env) (by simp [pipelinePatches, hfa])
        (by intro p hp
            rw [List.mem_singleton.1 hp]
            exact ⟨rfl, by simp [savingPatch]⟩)
        (Or.inl ⟨rfl, rfl⟩)
      have hmap : ((0 : Int) :: [savingPatch env].map (fun p => p.progress.getD 0))
          = [0, 5] := by simp [savingPatch]
      constructor
      · intro _hN
        rw [hproc, hmap]
        decide
      · intro r hr
        obtain ⟨h1, h2, h3⟩ := hmem r hr
        refine ⟨h1, h2, fun hp => ?_⟩
        have hv := h3 hp
        rw [hmap] at hv
        simp only [List.mem_cons, List.not_mem_nil, or_false] at hv
        rcases hv with h | h <;> omega
    | pdfCli =>
      obtain ⟨hproc, hmem, _⟩ := trace_analysis env
        [savingPatch env, convertingPdfPatch] (failedPatch env)
        (by simp [pipelinePatches, hfa])
        (by intro p hp
            simp only [List.mem_cons, List.not_mem_nil, or_false] at hp
            rcases hp with h | h <;> subst h <;>
              exact ⟨rfl, by simp [savingPatch, convertingPdfPatch]⟩)
        (Or.inl ⟨rfl, rfl⟩)
      have hmap : ((0 : Int) :: [savingPatch env, convertingPdfPatch].map
          (fun p => p.progress.getD 0)) = [0, 5, 10] := by
        simp [savingPatch, convertingPdfPatch]
      constructor
      · intro _hN
        rw [hproc, hmap]
        decide
      · intro r hr
        obtain ⟨h1, h2, h3⟩ := hmem r hr
        refine ⟨h1, h2, fun hp => ?_⟩
        have hv := h3 hp
        rw [hmap] at hv
        simp only [List.mem_cons, List.not_mem_nil, or_false] at hv
        rcases hv with h | h | h <;> omega
    | ttsChunk k =>
      exact c1_std_case env (k + 1) [] (failedPatch env) (by omega)
        (htts k hfa)
        (by simp [pipelinePatches, hfa, stdPrefix, List.append_assoc])
        (by simp) (Or.inl ⟨rfl, rfl⟩) [] (by simp) (by decide)
        (by intro b hb; simp at hb) (by simp)
    | combine =>
      refine c1_std_case env env.chunkCount [combinePatch] (failedPatch env)
        hn1 le_rfl
        (by simp [pipelinePatches, hfa, stdPrefix, List.append_assoc])
        ?_ (Or.inl ⟨rfl, rfl⟩) [58] (by simp [combinePatch]) (by decide)
        (by intro b hb; simp at hb; omega) (by decide)
      intro p hp
      rw [List.mem_singleton.1 hp]
      exact ⟨rfl, by simp [combinePatch]⟩
    | adjustSpeed =>
      refine c1_std_case env env.chunkCount [combinePatch, adjustPatch env]
        (failedPatch env) hn1 le_rfl
        (by simp [pipelinePatches, hfa, stdPrefix, List.append_assoc])
        ?_ (Or.inl ⟨rfl, rfl⟩) [58, 60] (by simp [combinePatch, adjustPatch])
        (by decide) (by intro b hb; simp at hb; omega) (by decide)
      intro p hp
      simp only [List.mem_cons, List.not_mem_nil, or_false] at hp
      rcases hp with h | h <;> subst h <;>
        exact ⟨rfl, by simp [combinePatch, adjustPatch]⟩

/-- C1 witness: a two-chunk successful TXT run satisfies the amended
monotonicity and terminal discipline. -/
theorem C1_witness :
    ((⟨false, false, 2, "T", 70, none, "", false⟩ : PipelineEnv).wf
      ∧ (⟨false, false, 2, "T", 70, none, "", false⟩ : PipelineEnv).chunkCount ≤ 29)
    ∧ sortedLE (processingProgress
        ⟨false, false, 2, "T", 70, none, "", false⟩) = true := by
  have hwf : (⟨false, false, 2, "T", 70, none, "", false⟩ : PipelineEnv).wf := by
    refine ⟨by decide, fun h => by simp at h, fun k h => by simp at h,
      fun _ => rfl⟩
  exact ⟨⟨hwf, by decide⟩,
    (C1_progress_monotonic ⟨false, false, 2, "T", 70, none, "", false⟩ hwf).1
      (by decide)⟩

/-- The map to stage/progress pairs over a whole trace, when every patch
sets both fields. -/
theorem trace_map_stageProg (env : PipelineEnv)
    (h : ∀ p ∈ pipelinePatches env, p.stage ≠ none ∧ p.progress ≠ none) :
    (pipelineTrace env).map (fun r => (r.stage, r.progress))
      = ("starting", (0 : Int)) :: (pipelinePatches env).map
          (fun p => (p.stage.getD "", p.progress.getD 0)) := by
  simp only [pipelineTrace, List.map_cons]
  rw [emitList_map_stageProg _ h]
  rfl

/-- A run that ends in the `catch`: the last record is the failed one (with
the thrown error's message), no record is ever `completed`, and every
stage written is the creation stage, a prefix stage, or `failed`. -/
theorem fail_case_analysis (env : PipelineEnv) (qs : List JobPatch)
    (hsplit : pipelinePatches env = qs ++ [failedPatch env])
    (hq : ∀ p ∈ qs, p.status = none ∧ p.progress ≠ none ∧ p.stage ≠ none) :
    (∃ r, (pipelineTrace env).getLast? = some r ∧ r.status = "failed"
      ∧ r.stage = "failed" ∧ r.progress = -1 ∧ r.message = env.failMsg)
    ∧ (∀ r ∈ pipelineTrace env, r.status ≠ "completed")
    ∧ (∀ r ∈ pipelineTrace env,
        r.stage = "starting" ∨ r.stage ∈ qs.map (fun p => p.stage.getD "")
          ∨ r.stage = "failed") := by
  have hqs := emitList_status_none qs (fun p hp => (hq p hp).1) (initRec env)
  have htrace : pipelineTrace env
      = initRec env :: (emitList (initRec env) qs
          ++ [applyPatch (List.foldl applyPatch (initRec env) qs)
              (failedPatch env)]) := by
    simp only [pipelineTrace, hsplit, emitList_append]
    rfl
  set J := List.foldl applyPatch (initRec env) qs with hJ
  set F := applyPatch J (failedPatch env) with hF
  have hFfields : F.status = "failed" ∧ F.stage = "failed" ∧ F.progress = -1
      ∧ F.message = env.failMsg := by
    refine ⟨?_, ?_, ?_, ?_⟩ <;> simp [hF, applyPatch, failedPatch]
  refine ⟨⟨F, ?_, hFfields.1, hFfields.2.1, hFfields.2.2.1, hFfields.2.2.2⟩, ?_, ?_⟩
  · rw [htrace, ← List.cons_append, List.getLast?_concat]
  · intro r hr
    rw [htrace] at hr
    rcases List.mem_cons.1 hr with hr | hr
    · subst hr
      simp [initRec]
    · rcases List.mem_append.1 hr with hr | hr
      · rw [hqs.1 r hr]
        simp [initRec]
      · have : r = F := by simpa using hr
        rw [this, hFfields.1]
        decide
  · intro r hr
    rw [htrace] at hr
    rcases List.mem_cons.1 hr with hr | hr
    · subst hr
      left
      rfl
    · rcases List.mem_append.1 hr with hr | hr
      · right
        left
        have hmem : (r.stage, r.progress)
            ∈ (emitList (initRec env) qs).map (fun r => (r.stage, r.progress)) :=
          List.mem_map_of_mem _ hr
        rw [emitList_map_stageProg qs (fun p hp => ⟨(hq p hp).2.2, (hq p hp).2.1⟩)
          (initRec env)] at hmem
        obtain ⟨p, hp, hpair⟩ := List.mem_map.1 hmem
        have : r.stage = p.stage.getD "" := (congrArg Prod.fst hpair).symm
        rw [this]
        exact List.mem_map_of_mem _ hp
      · have : r = F := by simpa using hr
        rw [this]
        right
        right
        exact hFfields.2.1

/-- A run that reaches `completed`: the last record is the completed one. -/
theorem success_case_analysis (env : PipelineEnv) (qs : List JobPatch)
    (hsplit : pipelinePatches env = qs ++ [completedPatch env]) :
    ∃ r, (pipelineTrace env).getLast? = some r ∧ r.status = "completed"
      ∧ r.stage = "completed" ∧ r.progress = 100 := by
  have htrace : pipelineTrace env
      = initRec env :: (emitList (initRec env) qs
          ++ [applyPatch (List.foldl applyPatch (initRec env) qs)
              (completedPatch env)]) := by
    simp only [pipelineTrace, hsplit, emitList_append]
    rfl
  refine ⟨applyPatch (List.foldl applyPatch (initRec env) qs) (completedPatch env),
    ?_, ?_, ?_, ?_⟩
  · rw [htrace, ← List.cons_append, List.getLast?_concat]
  · simp [applyPatch, completedPatch]
  · simp [applyPatch, completedPatch]
  · simp [applyPatch, completedPatch]

set_option maxHeartbeats 1000000 in
theorem pipelinePatches_stageProg (env : PipelineEnv) :
    ∀ p ∈ pipelinePatches env, p.stage ≠ none ∧ p.progress ≠ none := by
  have hsingle : ∀ q : JobPatch,
      q = savingPatch env ∨ q = convertingPdfPatch ∨ q = convertedPdfPatch
        ∨ q = convertingTxtPatch ∨ q = convertedTxtPatch ∨ q = genPrepPatch
        ∨ q = combinePatch ∨ q = adjustPatch env ∨ q = transcribingPatch
        ∨ q = transcribedPatch ∨ q = finalizingPatch ∨ q = completedPatch env
        ∨ q = failedPatch env →
      q.stage ≠ none ∧ q.progress ≠ none := by
    intro q hq
    rcases hq with rfl | rfl | rfl | rfl | rfl | rfl | rfl | rfl | rfl | rfl | rfl | rfl | rfl <;>
      exact ⟨by simp [savingPatch, convertingPdfPatch, convertedPdfPatch,
          convertingTxtPatch, convertedTxtPatch, genPrepPatch, combinePatch,
          adjustPatch, transcribingPatch, transcribedPatch, finalizingPatch,
          completedPatch, failedPatch],
        by simp [savingPatch, convertingPdfPatch, convertedPdfPatch,
          convertingTxtPatch, convertedTxtPatch, genPrepPatch, combinePatch,
          adjustPatch, transcribingPatch, transcribedPatch, finalizingPatch,
          completedPatch, failedPatch]⟩
  have hconv : ∀ p ∈ convertPatches env, p.stage ≠ none ∧ p.progress ≠ none := by
    intro p hp
    cases hb : env.isPdf <;> simp only [convertPatches, hb, if_true, if_false,
        Bool.false_eq_true, List.mem_cons, List.not_mem_nil, or_false] at hp <;>
      rcases hp with rfl | rfl <;> exact hsingle _ (by tauto)
  have hchunk : ∀ n m, ∀ p ∈ chunkPatches n m, p.stage ≠ none ∧ p.progress ≠ none := by
    intro n m p hp
    simp only [chunkPatches, List.mem_map] at hp
    obtain ⟨i, _, rfl⟩ := hp
    exact ⟨by simp [genChunkPatch], by simp [genChunkPatch]⟩
  have hstd : ∀ m, ∀ p ∈ [savingPatch env] ++ convertPatches env ++ [genPrepPatch]
      ++ chunkPatches env.chunkCount m, p.stage ≠ none ∧ p.progress ≠ none := by
    intro m p hp
    rcases List.mem_append.1 hp with hp | hp
    · rcases List.mem_append.1 hp with hp | hp
      · rcases List.mem_append.1 hp with hp | hp
        · exact hsingle p (Or.inl (List.mem_singleton.1 hp))
        · exact hconv p hp
      · exact hsingle p (by simp at hp; tauto)
    · exact hchunk _ _ p hp
  intro p hp
  rcases hfa : env.failAt with _ | fp
  · simp only [pipelinePatches, hfa] at hp
    rcases List.mem_append.1 hp with hp | hp
    swap
    · simp only [List.mem_cons, List.not_mem_nil, or_false] at hp
      rcases hp with rfl | rfl <;> exact hsingle _ (by tauto)
    rcases List.mem_append.1 hp with hp | hp
    swap
    · by_cases hw : env.whisperFails
      · rw [if_pos hw] at hp
        simp at hp
      · rw [if_neg hw] at hp
        exact hsingle p (by simp at hp; tauto)
    rcases List.mem_append.1 hp with hp | hp
    swap
    · exact hsingle p (by simp at hp; tauto)
    rcases List.mem_append.1 hp with hp | hp
    swap
    · by_cases hvc : env.voiceCloning
      · rw [if_pos hvc] at hp
        simp at hp
      · rw [if_neg hvc] at hp
        exact hsingle p (by simp at hp; tauto)
    rcases List.mem_append.1 hp with hp | hp
    swap
    · exact hsingle p (by simp at hp; tauto)
    · exact hstd _ p hp
  · cases fp with
    | saveFile =>
      simp only [pipelinePatches, hfa, List.mem_cons, List.not_mem_nil, or_false] at hp
      rcases hp with rfl | rfl <;> exact hsingle _ (by tauto)
    | pdfCli =>
      simp only [pipelinePatches, hfa, List.mem_cons, List.not_mem_nil, or_false] at hp
      rcases hp with rfl | rfl | rfl <;> exact hsingle _ (by tauto)
    | ttsChunk k =>
      simp only [pipelinePatches, hfa] at hp
      rcases List.mem_append.1 hp with hp | hp
      · exact hstd _ p hp
      · exact hsingle p (by simp at hp; tauto)
    | combine =>
      simp only [pipelinePatches, hfa] at hp
      rcases List.mem_append.1 hp with hp | hp
      · exact hstd _ p hp
      · simp only [List.mem_cons, List.not_mem_nil, or_false] at hp
        rcases hp with rfl | rfl <;> exact hsingle _ (by tauto)
    | adjustSpeed =>
      simp only [pipelinePatches, hfa] at hp
      rcases List.mem_append.1 hp with hp | hp
      · exact hstd _ p hp
      · simp only [List.mem_cons, List.not_mem_nil, or_false] at hp
        rcases hp with rfl | rfl | rfl <;> exact hsingle _ (by tauto)

/-- C2, counterexample: the spec's stage list does not match the code.  On a
completing PDF run the driver never writes a stage named `extracting_text`
(it writes `converting_pdf`/`converted_pdf`), and the `finalizing` update
carries progress 95, not 90 (vite.config.ts line 1094). -/
theorem C2_counterexample :
    ((pipelineTrace ⟨true, false, 1, "T", 70, none, "", false⟩).all
        (fun r => !(r.stage == "extracting_text")) = true)
    ∧ ((pipelineTrace ⟨true, false, 1, "T", 70, none, "", false⟩).any
        (fun r => r.stage == "finalizing" && r.progress == 95) = true)
    ∧ ((pipelineTrace ⟨true, false, 1, "T", 70, none, "", false⟩).any
        (fun r => r.stage == "finalizing" && r.progress == 90) = false) := by
  decide

/-- C2 (amended): a run that completes writes exactly the stage/progress
sequence `starting(0), saving_file(5), converting_pdf(10)/converting_txt(10),
converted_pdf(30)/converted_txt(30), generating_audio(30),
generating_audio(30 + ⌊i·30/N⌋) for each chunk i, combining_audio(58),
adjusting_speed(60) when voice cloning is off, transcribing(60),
transcribed(90) when WhisperX succeeds, finalizing(95), completed(100)`;
and a run whose operation throws ends with the terminal
`failed` record at progress −1 carrying the error message. -/
theorem C2_stage_sequence (env : PipelineEnv) :
    (env.failAt = none →
      (pipelineTrace env).map (fun r => (r.stage, r.progress))
        = [("starting", (0 : Int)), ("saving_file", 5)]
          ++ (if env.isPdf then
                [("converting_pdf", (10 : Int)), ("converted_pdf", 30)]
              else [("converting_txt", (10 : Int)), ("converted_txt", 30)])
          ++ [("generating_audio", 30)]
          ++ (List.range env.chunkCount).map
              (fun i => ("generating_audio", chunkProg env.chunkCount i))
          ++ [("combining_audio", 58)]
          ++ (if env.voiceCloning then [] else [("adjusting_speed", (60 : Int))])
          ++ [("transcribing", 60)]
          ++ (if env.whisperFails then [] else [("transcribed", (90 : Int))])
          ++ [("finalizing", 95), ("completed", 100)])
    ∧ (∀ fp, env.failAt = some fp →
        ∃ r, (pipelineTrace env).getLast? = some r ∧ r.status = "failed"
          ∧ r.stage = "failed" ∧ r.progress = -1 ∧ r.message = env.failMsg) := by
  constructor
  · intro hfa
    rw [trace_map_stageProg env (pipelinePatches_stageProg env)]
    simp only [pipelinePatches, hfa]
    cases hb : env.isPdf <;> cases hvc : env.voiceCloning <;>
      cases hw : env.whisperFails <;>
      simp [convertPatches, hb, hvc, hw, savingPatch, convertingPdfPatch,
        convertedPdfPatch, convertingTxtPatch, convertedTxtPatch, genPrepPatch,
        chunkPatches, genChunkPatch, chunkProg, combinePatch, adjustPatch,
        transcribingPatch, transcribedPatch, finalizingPatch, completedPatch,
        List.map_append, List.map_map, Function.comp]
  · intro fp hfa
    have hsplit : ∃ qs, pipelinePatches env = qs ++ [failedPatch env] := by
      cases fp with
      | saveFile => exact ⟨[savingPatch env], by simp [pipelinePatches, hfa]⟩
      | pdfCli =>
        exact ⟨[savingPatch env, convertingPdfPatch],
          by simp [pipelinePatches, hfa]⟩
      | ttsChunk k =>
        exact ⟨[savingPatch env] ++ convertPatches env ++ [genPrepPatch]
          ++ chunkPatches env.chunkCount (k + 1),
          by simp [pipelinePatches, hfa]⟩
      | combine =>
        exact ⟨[savingPatch env] ++ convertPatches env ++ [genPrepPatch]
          ++ chunkPatches env.chunkCount env.chunkCount ++ [combinePatch],
          by simp [pipelinePatches, hfa]⟩
      | adjustSpeed =>
        exact ⟨[savingPatch env] ++ convertPatches env ++ [genPrepPatch]
          ++ chunkPatches env.chunkCount env.chunkCount
          ++ [combinePatch, adjustPatch env],
          by simp [pipelinePatches, hfa]⟩
    obtain ⟨qs, hqs⟩ := hsplit
    have htrace : pipelineTrace env
        = initRec env :: (emitList (initRec env) qs
            ++ [applyPatch (List.foldl applyPatch (initRec env) qs)
                (failedPatch env)]) := by
      simp only [pipelineTrace, hqs, emitList_append]
      rfl
    refine ⟨applyPatch (List.foldl applyPatch (initRec env) qs) (failedPatch env),
      ?_, ?_, ?_, ?_, ?_⟩
    · rw [htrace, ← List.cons_append, List.getLast?_concat]
    · simp [applyPatch, failedPatch]
    · simp [applyPatch, failedPatch]
    · simp [applyPatch, failedPatch]
    · simp [applyPatch, failedPatch]

/-- C2 witness: the amended sequence evaluated on a completing two-chunk TXT
run. -/
theorem C2_witness :
    (pipelineTrace ⟨false, false, 2, "T", 70, none, "", false⟩).map
        (fun r => (r.stage, r.progress))
      = [("starting", (0 : Int)), ("saving_file", 5), ("converting_txt", 10),
         ("converted_txt", 30), ("generating_audio", 30),
         ("generating_audio", 30), ("generating_audio", 45),
         ("combining_audio", 58), ("adjusting_speed", 60),
         ("transcribing", 60), ("transcribed", 90), ("finalizing", 95),
         ("completed", 100)] := by
  rw [(C2_stage_sequence ⟨false, false, 2, "T", 70, none, "", false⟩).1 rfl]
  decide

/-- Field and stage-name facts for every patch of the shared prefix. -/
theorem stdPrefix_fields3 (env : PipelineEnv) (m : Nat) :
    ∀ p ∈ stdPrefix env m,
      p.status = none ∧ p.progress ≠ none ∧ p.stage ≠ none
      ∧ (p.stage.getD "" = "saving_file" ∨ p.stage.getD "" = "converting_pdf"
        ∨ p.stage.getD "" = "converted_pdf"
        ∨ p.stage.getD "" = "converting_txt"
        ∨ p.stage.getD "" = "converted_txt"
        ∨ p.stage.getD "" = "generating_audio") := by
  intro p hp
  simp only [stdPrefix, List.append_assoc, List.mem_append, List.mem_singleton] at hp
  rcases hp with h | h | h | h
  · subst h
    exact ⟨rfl, by simp [savingPatch], by simp [savingPatch], Or.inl rfl⟩
  · cases hb : env.isPdf <;> simp [convertPatches, hb] at h <;>
      rcases h with h | h <;> subst h <;>
      exact ⟨rfl, by simp [convertingPdfPatch, convertedPdfPatch,
          convertingTxtPatch, convertedTxtPatch],
        by simp [convertingPdfPatch, convertedPdfPatch,
          convertingTxtPatch, convertedTxtPatch],
        by tauto⟩
  · subst h
    exact ⟨rfl, by simp [genPrepPatch], by simp [genPrepPatch],
      Or.inr (Or.inr (Or.inr (Or.inr (Or.inr rfl))))⟩
  · simp only [chunkPatches, List.mem_map] at h
    obtain ⟨i, _, h⟩ := h
    subst h
    exact ⟨rfl, by simp [genChunkPatch], by simp [genChunkPatch],
      Or.inr (Or.inr (Or.inr (Or.inr (Or.inr rfl))))⟩

/-- No stage name of the shared prefix is one of the post-synthesis
stages. -/
theorem stdPrefix_stage_ok (env : PipelineEnv) (m : Nat) :
    ∀ st ∈ (stdPrefix env m).map (fun p => p.stage.getD ""),
      st ≠ "transcribing" ∧ st ≠ "transcribed" ∧ st ≠ "finalizing"
        ∧ st ≠ "completed" := by
  intro st hst
  obtain ⟨p, hp, rfl⟩ := List.mem_map.1 hst
  rcases (stdPrefix_fields3 env m p hp).2.2.2 with h | h | h | h | h | h <;>
    rw [h] <;> exact ⟨by decide, by decide, by decide, by decide⟩

/-- C3, counterexample: a WhisperX transcription failure is caught by the
inner `try` (vite.config.ts lines 1058-1092) and swallowed: the run still
writes `finalizing` and ends `completed(100)`, with no `failed` record, so
not every stage exception yields status=failed with the remaining stages
skipped. -/
theorem C3_counterexample :
    ((pipelineTrace ⟨false, false, 1, "T", 70, none, "", true⟩).any
        (fun r => r.status == "failed") = false)
    ∧ ((pipelineTrace ⟨false, false, 1, "T", 70, none, "", true⟩).getLast?.map
        (fun r => (r.stage, r.status, r.progress))
        = some ("completed", "completed", 100)) := by
  decide

/-- C3 (amended): an exception thrown by the save, PDF-conversion,
synthesis, combine or speed-adjustment operation lands in the outer
`catch`: the job's last registry record has status `failed`, progress −1
and the error's message, no record is ever `completed`, and no
post-synthesis stage (`transcribing`, `transcribed`, `finalizing`,
`completed`) is written afterwards; but a WhisperX transcription failure is
swallowed by the inner `try`, so a run whose listed operations all succeed
ends `completed(100)` and never writes a `failed` status, whether or not
transcription succeeded. -/
theorem C3_failure_terminal (env : PipelineEnv) :
    (∀ fp, env.failAt = some fp →
      (∃ r, (pipelineTrace env).getLast? = some r ∧ r.status = "failed"
          ∧ r.progress = -1 ∧ r.message = env.failMsg)
      ∧ (∀ r ∈ pipelineTrace env, r.status ≠ "completed")
      ∧ (∀ r ∈ pipelineTrace env, r.stage ≠ "transcribing"
          ∧ r.stage ≠ "transcribed" ∧ r.stage ≠ "finalizing"
          ∧ r.stage ≠ "completed"))
    ∧ (env.failAt = none →
      (∃ r, (pipelineTrace env).getLast? = some r ∧ r.status = "completed"
          ∧ r.progress = 100)
      ∧ (∀ r ∈ pipelineTrace env, r.status ≠ "failed")) := by
  constructor
  · intro fp hfa
    have key : ∃ qs, pipelinePatches env = qs ++ [failedPatch env]
        ∧ (∀ p ∈ qs, p.status = none ∧ p.progress ≠ none ∧ p.stage ≠ none)
        ∧ (∀ st ∈ qs.map (fun p => p.stage.getD ""),
            st ≠ "transcribing" ∧ st ≠ "transcribed" ∧ st ≠ "finalizing"
              ∧ st ≠ "completed") := by
      cases fp with
      | saveFile =>
        refine ⟨[savingPatch env], by simp [pipelinePatches, hfa], ?_, ?_⟩
        · intro p hp
          simp only [List.mem_singleton] at hp
          subst hp
          exact ⟨rfl, by simp [savingPatch], by simp [savingPatch]⟩
        · intro st hst
          simp only [List.map_cons, List.map_nil, List.mem_singleton,
            savingPatch, Option.getD_some] at hst
          subst hst
          exact ⟨by decide, by decide, by decide, by decide⟩
      | pdfCli =>
        refine ⟨[savingPatch env, convertingPdfPatch],
          by simp [pipelinePatches, hfa], ?_, ?_⟩
        · intro p hp
          simp only [List.mem_cons, List.not_mem_nil, or_false] at hp
          rcases hp with rfl | rfl
          · exact ⟨rfl, by simp [savingPatch], by simp [savingPatch]⟩
          · exact ⟨rfl, by simp [convertingPdfPatch], by simp [convertingPdfPatch]⟩
        · intro st hst
          simp only [List.map_cons, List.map_nil, List.mem_cons,
            List.not_mem_nil, or_false, savingPatch, convertingPdfPatch,
            Option.getD_some] at hst
          rcases hst with rfl | rfl <;>
            exact ⟨by decide, by decide, by decide, by decide⟩
      | ttsChunk k =>
        refine ⟨stdPrefix env (k + 1),
          by simp [pipelinePatches, hfa, stdPrefix], ?_, ?_⟩
        · intro p hp
          have h := stdPrefix_fields3 env (k + 1) p hp
          exact ⟨h.1, h.2.1, h.2.2.1⟩
        · exact stdPrefix_stage_ok env (k + 1)
      | combine =>
        refine ⟨stdPrefix env env.chunkCount ++ [combinePatch],
          by simp [pipelinePatches, hfa, stdPrefix], ?_, ?_⟩
        · intro p hp
          rcases List.mem_append.1 hp with hp | hp
          · have h := stdPrefix_fields3 env env.chunkCount p hp
            exact ⟨h.1, h.2.1, h.2.2.1⟩
          · simp only [List.mem_singleton] at hp
            subst hp
            exact ⟨rfl, by simp [combinePatch], by simp [combinePatch]⟩
        · intro st hst
          rw [List.map_append] at hst
          rcases List.mem_append.1 hst with hst | hst
          · exact stdPrefix_stage_ok env env.chunkCount st hst
          · simp only [List.map_cons, List.map_nil, List.mem_singleton,
              combinePatch, Option.getD_some] at hst
            subst hst
            exact ⟨by decide, by decide, by decide, by decide⟩
      | adjustSpeed =>
        refine ⟨stdPrefix env env.chunkCount ++ [combinePatch, adjustPatch env],
          by simp [pipelinePatches, hfa, stdPrefix], ?_, ?_⟩
        · intro p hp
          rcases List.mem_append.1 hp with hp | hp
          · have h := stdPrefix_fields3 env env.chunkCount p hp
            exact ⟨h.1, h.2.1, h.2.2.1⟩
          · simp only [List.mem_cons, List.not_mem_nil, or_false] at hp
            rcases hp with rfl | rfl
            · exact ⟨rfl, by simp [combinePatch], by simp [combinePatch]⟩
            · exact ⟨rfl, by simp [adjustPatch], by simp [adjustPatch]⟩
        · intro st hst
          rw [List.map_append] at hst
          rcases List.mem_append.1 hst with hst | hst
          · exact stdPrefix_stage_ok env env.chunkCount st hst
          · simp only [List.map_cons, List.map_nil, List.mem_cons,
              List.not_mem_nil, or_false, combinePatch, adjustPatch,
              Option.getD_some] at hst
            rcases hst with rfl | rfl <;>
              exact ⟨by decide, by decide, by decide, by decide⟩
    obtain ⟨qs, hqs, hq, hstg⟩ := key
    obtain ⟨⟨r, hlast, h1, _h2, h3, h4⟩, hnc, hstage⟩ :=
      fail_case_analysis env qs hqs hq
    refine ⟨⟨r, hlast, h1, h3, h4⟩, hnc, ?_⟩
    intro r2 hr2
    rcases hstage r2 hr2 with h | h | h
    · rw [h]
      exact ⟨by decide, by decide, by decide, by decide⟩
    · exact hstg _ h
    · rw [h]
      exact ⟨by decide, by decide, by decide, by decide⟩
  · intro hfa
    have hsplit : pipelinePatches env
        = (stdPrefix env env.chunkCount ++ [combinePatch]
            ++ (if env.voiceCloning then [] else [adjustPatch env])
            ++ [transcribingPatch]
            ++ (if env.whisperFails then [] else [transcribedPatch])
            ++ [finalizingPatch]) ++ [completedPatch env] := by
      simp [pipelinePatches, hfa, stdPrefix]
    constructor
    · obtain ⟨r, hlast, h1, _h2, h3⟩ := success_case_analysis env _ hsplit
      exact ⟨r, hlast, h1, h3⟩
    · have hstat : ∀ p ∈ (stdPrefix env env.chunkCount ++ [combinePatch]
          ++ (if env.voiceCloning then [] else [adjustPatch env])
          ++ [transcribingPatch]
          ++ (if env.whisperFails then [] else [transcribedPatch])
          ++ [finalizingPatch]), p.status = none := by
        intro p hp
        rcases List.mem_append.1 hp with hp | hp
        swap
        · simp only [List.mem_singleton] at hp
          subst hp
          rfl
        rcases List.mem_append.1 hp with hp | hp
        swap
        · by_cases hw : env.whisperFails
          · rw [if_pos hw] at hp
            simp at hp
          · rw [if_neg hw] at hp
            simp only [List.mem_singleton] at hp
            subst hp
            rfl
        rcases List.mem_append.1 hp with hp | hp
        swap
        · simp only [List.mem_singleton] at hp
          subst hp
          rfl
        rcases List.mem_append.1 hp with hp | hp
        swap
        · by_cases hvc : env.voiceCloning
          · rw [if_pos hvc] at hp
            simp at hp
          · rw [if_neg hvc] at hp
            simp only [List.mem_singleton] at hp
            subst hp
            rfl
        rcases List.mem_append.1 hp with hp | hp
        swap
        · simp only [List.mem_singleton] at hp
          subst hp
          rfl
        · exact (stdPrefix_fields env _ p hp).1
      have hqs := emitList_status_none _ hstat (initRec env)
      have htrace : pipelineTrace env
          = initRec env :: (emitList (initRec env)
              (stdPrefix env env.chunkCount ++ [combinePatch]
                ++ (if env.voiceCloning then [] else [adjustPatch env])
                ++ [transcribingPatch]
                ++ (if env.whisperFails then [] else [transcribedPatch])
                ++ [finalizingPatch])
              ++ [applyPatch (List.foldl applyPatch (initRec env)
                  (stdPrefix env env.chunkCount ++ [combinePatch]
                    ++ (if env.voiceCloning then [] else [adjustPatch env])
                    ++ [transcribingPatch]
                    ++ (if env.whisperFails then [] else [transcribedPatch])
                    ++ [finalizingPatch])) (completedPatch env)]) := by
        simp only [pipelineTrace, hsplit, emitList_append]
        rfl
      intro r hr
      rw [htrace] at hr
      rcases List.mem_cons.1 hr with hr | hr
      · subst hr
        simp [initRec]
      · rcases List.mem_append.1 hr with hr | hr
        · rw [hqs.1 r hr]
          simp [initRec]
        · have hre : r = applyPatch (List.foldl applyPatch (initRec env)
              (stdPrefix env env.chunkCount ++ [combinePatch]
                ++ (if env.voiceCloning then [] else [adjustPatch env])
                ++ [transcribingPatch]
                ++ (if env.whisperFails then [] else [transcribedPatch])
                ++ [finalizingPatch])) (completedPatch env) := by
            simpa using hr
          rw [hre]
          have : (applyPatch (List.foldl applyPatch (initRec env)
              (stdPrefix env env.chunkCount ++ [combinePatch]
                ++ (if env.voiceCloning then [] else [adjustPatch env])
                ++ [transcribingPatch]
                ++ (if env.whisperFails then [] else [transcribedPatch])
                ++ [finalizingPatch])) (completedPatch env)).status
              = "completed" := by
            simp [applyPatch, completedPatch]
          rw [this]
          decide

/-- C3 witness: a run whose combine step throws `boom` ends with the failed
record carrying that message. -/
theorem C3_witness :
    ∃ r, (pipelineTrace
        ⟨false, false, 1, "T", 70, some .combine, "boom", false⟩).getLast?
      = some r ∧ r.status = "failed" ∧ r.progress = -1
      ∧ r.message = "boom" := by
  exact ((C3_failure_terminal
    ⟨false, false, 1, "T", 70, some .combine, "boom", false⟩).1 .combine rfl).1

/-! ## Lemmas about the WAV parser and splicer -/

/-- Field bounds forced on every `fmt ` record by the byte-wise reads. -/
def fmtBounded (f : FmtInfo) : Prop :=
  f.format < 65536 ∧ f.channels < 65536 ∧ f.sampleRate < 4294967296
    ∧ f.bitsPerSample < 65536

theorem readByte_lt (buf : List Nat) (i : Nat) : readByte buf i < 256 :=
  Nat.mod_lt _ (by norm_num)

theorem readU16_lt (buf : List Nat) (off : Nat) : readU16 buf off < 65536 := by
  have h1 := readByte_lt buf off
  have h2 := readByte_lt buf (off + 1)
  simp only [readU16]
  omega

theorem readU32_lt (buf : List Nat) (off : Nat) :
    readU32 buf off < 4294967296 := by
  have h1 := readByte_lt buf off
  have h2 := readByte_lt buf (off + 1)
  have h3 := readByte_lt buf (off + 2)
  have h4 := readByte_lt buf (off + 3)
  simp only [readU32]
  omega

/-- Any `fmt ` record produced by the chunk walk satisfies the byte-width
bounds. -/
theorem chunkWalk_bounds (buf : List Nat) (pos : Nat) (fmt? : Option FmtInfo)
    (data? : Option (Nat × Nat)) :
    ∀ f d, (∀ f0, fmt? = some f0 → fmtBounded f0) →
      chunkWalk buf pos fmt? data? = .ok (some f, d) → fmtBounded f := by
  induction pos, fmt?, data? using chunkWalk.induct
  case buf => exact buf
  case case1 pos fmt? data? hguard lid lsize lcs hid hbnd ih =>
    have hguard2 : pos + 8 ≤ buf.length := hguard
    have hid2 : ascii4 buf pos = [102, 109, 116, 32] := hid
    have hbnd2 : pos + 8 + 16 ≤ buf.length := hbnd
    intro f d hb heq
    rw [chunkWalk] at heq
    rw [dif_pos hguard2] at heq
    rw [if_pos hid2, if_pos hbnd2] at heq
    refine ih f d ?_ heq
    intro f0 h0
    injection h0 with h0
    subst h0
    exact ⟨readU16_lt _ _, readU16_lt _ _, readU32_lt _ _, readU16_lt _ _⟩
  case case2 pos fmt? data? hguard lid lcs hid hbnd =>
    have hguard2 : pos + 8 ≤ buf.length := hguard
    have hid2 : ascii4 buf pos = [102, 109, 116, 32] := hid
    have hbnd2 : ¬pos + 8 + 16 ≤ buf.length := hbnd
    intro f d hb heq
    rw [chunkWalk] at heq
    rw [dif_pos hguard2] at heq
    rw [if_pos hid2, if_neg hbnd2] at heq
    exact absurd heq (by simp)
  case case3 pos fmt? data? hguard lid lsize lcs hid1 hid2 ih =>
    have hguard2 : pos + 8 ≤ buf.length := hguard
    have hida : ¬ascii4 buf pos = [102, 109, 116, 32] := hid1
    have hidb : ascii4 buf pos = [100, 97, 116, 97] := hid2
    intro f d hb heq
    rw [chunkWalk] at heq
    rw [dif_pos hguard2] at heq
    rw [if_neg hida, if_pos hidb] at heq
    exact ih f d hb heq
  case case4 pos fmt? data? hguard lid lsize lcs hid1 hid2 ih =>
    have hguard2 : pos + 8 ≤ buf.length := hguard
    have hida : ¬ascii4 buf pos = [102, 109, 116, 32] := hid1
    have hidb : ¬ascii4 buf pos = [100, 97, 116, 97] := hid2
    intro f d hb heq
    rw [chunkWalk] at heq
    rw [dif_pos hguard2] at heq
    rw [if_neg hida, if_neg hidb] at heq
    exact ih f d hb heq
  case case5 pos fmt? data? hguard =>
    intro f d hb heq
    rw [chunkWalk] at heq
    rw [dif_neg hguard] at heq
    injection heq with heq
    exact hb f (congrArg Prod.fst heq)

/-- Every parsed fragment's format descriptor satisfies the byte-width
bounds. -/
theorem parseWav_bounds (b : List Nat) (i : WavInfo) (h : parseWav b = .ok i) :
    i.format < 65536 ∧ i.channels < 65536 ∧ i.sampleRate < 4294967296
      ∧ i.bitsPerSample < 65536 := by
  simp only [parseWav] at h
  by_cases hm : ascii4 b 0 = [82, 73, 70, 70] ∧ ascii4 b 8 = [87, 65, 86, 69]
  · rw [if_pos hm] at h
    cases hw : chunkWalk b 12 none none with
    | error e =>
      rw [hw] at h
      exact absurd h (by simp)
    | ok pr =>
      rw [hw] at h
      obtain ⟨f?, d?⟩ := pr
      cases f? with
      | none =>
        cases d? <;> exact absurd h (by simp)
      | some f =>
        cases d? with
        | none => exact absurd h (by simp)
        | some od =>
          obtain ⟨off, len⟩ := od
          have hb : fmtBounded f :=
            chunkWalk_bounds b 12 none none f (some (off, len))
              (fun f0 h0 => absurd h0 (by simp)) hw
          have hi : i = ⟨f.format, f.channels, f.sampleRate, f.bitsPerSample,
              off, len, b⟩ := by
            have := h
            simp only [Except.ok.injEq] at this
            exact this.symm
          rw [hi]
          exact hb
  · rw [if_neg hm] at h
    exact absurd h (by simp)

/-- Every info returned by the parse loop comes from parsing one input. -/
theorem parseAll_mem : ∀ (bs : List (List Nat)) (is : List WavInfo),
    parseAll bs = .ok is → ∀ i ∈ is, ∃ b, parseWav b = .ok i := by
  intro bs
  induction bs with
  | nil =>
    intro is h i hi
    simp only [parseAll, Except.ok.injEq] at h
    subst h
    simp at hi
  | cons b bs ih =>
    intro is h i hi
    simp only [parseAll] at h
    cases hb : parseWav b with
    | error e =>
      rw [hb] at h
      exact absurd h (by simp)
    | ok j =>
      rw [hb] at h
      cases hrest : parseAll bs with
      | error e =>
        rw [hrest] at h
        exact absurd h (by simp)
      | ok js =>
        rw [hrest] at h
        simp only [Except.ok.injEq] at h
        subst h
        rcases List.mem_cons.1 hi with hi | hi
        · subst hi
          exact ⟨b, hb⟩
        · exact ih js hrest i hi

/-- Re-parsing a header written by `combineWavs` over any payload of the
declared length recovers the format fields, data offset 44 and the declared
data length. -/
theorem wavHeader_reparse (first : WavInfo) (T : Nat) (P : List Nat)
    (hPT : P.length = T)
    (hfmt : first.format < 65536) (hch : first.channels < 65536)
    (hrate : first.sampleRate < 4294967296) (hbits : first.bitsPerSample < 65536)
    (hT : 36 + T ≤ 4294967295) :
    parseWav (wavHeader first T ++ P)
      = .ok ⟨first.format, first.channels, first.sampleRate,
          first.bitsPerSample, 44, T, wavHeader first T ++ P⟩ := by
  have hlen : (wavHeader first T ++ P).length = 44 + T := by
    simp [wavHeader, u16LE, u32LE]
    omega
  have a0 : ascii4 (wavHeader first T ++ P) 0 = [82, 73, 70, 70] := by
    simp [wavHeader, u16LE, u32LE, ascii4, readByte, List.getD]
  have a8 : ascii4 (wavHeader first T ++ P) 8 = [87, 65, 86, 69] := by
    simp [wavHeader, u16LE, u32LE, ascii4, readByte, List.getD]
  have a12 : ascii4 (wavHeader first T ++ P) 12 = [102, 109, 116, 32] := by
    simp [wavHeader, u16LE, u32LE, ascii4, readByte, List.getD]
  have a36 : ascii4 (wavHeader first T ++ P) 36 = [100, 97, 116, 97] := by
    simp [wavHeader, u16LE, u32LE, ascii4, readByte, List.getD]
  have r16 : readU32 (wavHeader first T ++ P) 16 = 16 := by
    simp [wavHeader, u16LE, u32LE, readU32, readByte, List.getD]
  have r20 : readU16 (wavHeader first T ++ P) 20 = first.format := by
    simp [wavHeader, u16LE, u32LE, readU16, readByte, List.getD]
    omega
  have r22 : readU16 (wavHeader first T ++ P) 22 = first.channels := by
    simp [wavHeader, u16LE, u32LE, readU16, readByte, List.getD]
    omega
  have r24 : readU32 (wavHeader first T ++ P) 24 = first.sampleRate := by
    simp [wavHeader, u16LE, u32LE, readU32, readByte, List.getD]
    omega
  have r34 : readU16 (wavHeader first T ++ P) 34 = first.bitsPerSample := by
    simp [wavHeader, u16LE, u32LE, readU16, readByte, List.getD]
    omega
  have r40 : readU32 (wavHeader first T ++ P) 40 = T := by
    simp [wavHeader, u16LE, u32LE, readU32, readByte, List.getD]
    omega
  have hc1 : 12 + 8 ≤ (wavHeader first T ++ P).length := by
    rw [hlen]; omega
  have hc2 : 12 + 8 + 16 ≤ (wavHeader first T ++ P).length := by
    rw [hlen]; omega
  have hc3 : 36 + 8 ≤ (wavHeader first T ++ P).length := by
    rw [hlen]; omega
  have hc4 : ¬44 + T + T % 2 + 8 ≤ (wavHeader first T ++ P).length := by
    rw [hlen]; omega
  have hne : ¬ascii4 (wavHeader first T ++ P) 36 = [102, 109, 116, 32] := by
    rw [a36]; decide
  have step1 : chunkWalk (wavHeader first T ++ P) 12 none none
      = chunkWalk (wavHeader first T ++ P) 36
          (some ⟨first.format, first.channels, first.sampleRate,
            first.bitsPerSample⟩) none := by
    rw [chunkWalk, dif_pos hc1, if_pos a12, if_pos hc2]
    simp [r16, r20, r22, r24, r34]
  have step2 : chunkWalk (wavHeader first T ++ P) 36
        (some ⟨first.format, first.channels, first.sampleRate,
          first.bitsPerSample⟩) none
      = chunkWalk (wavHeader first T ++ P) (44 + T + T % 2)
          (some ⟨first.format, first.channels, first.sampleRate,
            first.bitsPerSample⟩) (some (44, T)) := by
    rw [chunkWalk, dif_pos hc3, if_neg hne, if_pos a36]
    simp [r40]
  have step3 : chunkWalk (wavHeader first T ++ P) (44 + T + T % 2)
        (some ⟨first.format, first.channels, first.sampleRate,
          first.bitsPerSample⟩) (some (44, T))
      = .ok (some ⟨first.format, first.channels, first.sampleRate,
          first.bitsPerSample⟩, some (44, T)) := by
    rw [chunkWalk, dif_neg hc4]
  simp only [parseWav]
  rw [if_pos ⟨a0, a8⟩, step1, step2, step3]

/-- C4: splicing format-compatible fragments writes a container whose
payload is the fragments' payloads in order with total length the sum of
the data lengths, whose declared RIFF size is `4 + (8+16) + (8 + total)`,
and which re-parses to the first fragment's format descriptor with that
total data length.  The hypotheses are the guards of the code path: the
parse loop succeeded, the format check passed, each fragment's data chunk
lies inside its buffer, and the header fields fit the fixed-width encoders
(`writeUInt32LE`/`writeUInt16LE` throw otherwise). -/
theorem C4_splice_roundtrip (inputs : List (List Nat)) (first : WavInfo)
    (rest : List WavInfo)
    (h1 : parseAll inputs = .ok (first :: rest))
    (h2 : rest.all (fun i => sameFmt i first) = true)
    (hlen : ∀ i ∈ first :: rest, i.dataOffset + i.dataLength ≤ i.buffer.length)
    (hsz : 36 + ((first :: rest).map (fun i => i.dataLength)).sum ≤ 4294967295)
    (hbr : first.sampleRate * first.channels * (first.bitsPerSample / 8)
        ≤ 4294967295)
    (hba : first.channels * (first.bitsPerSample / 8) ≤ 65535) :
    combineWavs inputs
      = .ok (wavHeader first (((first :: rest).map (fun i => i.dataLength)).sum)
          ++ ((first :: rest).map wavPayload).flatten)
    ∧ (wavHeader first (((first :: rest).map (fun i => i.dataLength)).sum)
          ++ ((first :: rest).map wavPayload).flatten).drop 44
        = ((first :: rest).map wavPayload).flatten
    ∧ (wavHeader first (((first :: rest).map (fun i => i.dataLength)).sum)
          ++ ((first :: rest).map wavPayload).flatten).length
        = 44 + ((first :: rest).map (fun i => i.dataLength)).sum
    ∧ readU32 (wavHeader first
          (((first :: rest).map (fun i => i.dataLength)).sum)
          ++ ((first :: rest).map wavPayload).flatten) 4
        = 4 + (8 + 16) + (8 + ((first :: rest).map (fun i => i.dataLength)).sum)
    ∧ parseWav (wavHeader first
          (((first :: rest).map (fun i => i.dataLength)).sum)
          ++ ((first :: rest).map wavPayload).flatten)
      = .ok ⟨first.format, first.channels, first.sampleRate,
          first.bitsPerSample, 44,
          ((first :: rest).map (fun i => i.dataLength)).sum,
          wavHeader first (((first :: rest).map (fun i => i.dataLength)).sum)
            ++ ((first :: rest).map wavPayload).flatten⟩ := by
  obtain ⟨b0, hb0⟩ := parseAll_mem inputs (first :: rest) h1 first (by simp)
  have hbounds := parseWav_bounds b0 first hb0
  have hPT : (((first :: rest).map wavPayload).flatten).length
      = ((first :: rest).map (fun i => i.dataLength)).sum := by
    rw [List.length_flatten, List.map_map]
    congr 1
    apply List.map_congr_left
    intro i hi
    have hi2 := hlen i hi
    simp only [Function.comp_apply, wavPayload, List.length_take,
      List.length_drop]
    omega
  have hcomb : combineWavs inputs
      = .ok (wavHeader first (((first :: rest).map (fun i => i.dataLength)).sum)
          ++ ((first :: rest).map wavPayload).flatten) := by
    simp only [combineWavs, h1]
    rw [if_pos h2]
    rw [if_pos ⟨by omega, hbr, hba⟩]
  set T := ((first :: rest).map (fun i => i.dataLength)).sum with hTdef
  set P := ((first :: rest).map wavPayload).flatten with hPdef
  have hhl : (wavHeader first T).length = 44 := by
    simp [wavHeader, u16LE, u32LE]
  refine ⟨hcomb, ?_, ?_, ?_, ?_⟩
  · simp [wavHeader, u16LE, u32LE]
  · rw [List.length_append, hhl, hPT]
  · simp [wavHeader, u16LE, u32LE, readU32, readByte, List.getD]
    omega
  · exact wavHeader_reparse first T P hPT hbounds.1 hbounds.2.1
      hbounds.2.2.1 hbounds.2.2.2 hsz

/-- C4 witness: two 16-bit mono 22050 Hz fragments with payloads `[1, 2]`
and `[3, 4, 5]` splice into one container with payload `[1, 2, 3, 4, 5]`,
declared RIFF size `4 + (8+16) + (8+5)`, and the output re-parses to the
same format with data length 5. -/
theorem C4_witness :
    combineWavs
        [wavHeader ⟨1, 1, 22050, 16, 0, 0, []⟩ 2 ++ [1, 2],
          wavHeader ⟨1, 1, 22050, 16, 0, 0, []⟩ 3 ++ [3, 4, 5]]
      = .ok (wavHeader ⟨1, 1, 22050, 16, 44, 2,
            wavHeader ⟨1, 1, 22050, 16, 0, 0, []⟩ 2 ++ [1, 2]⟩ 5
          ++ [1, 2, 3, 4, 5])
    ∧ (wavHeader ⟨1, 1, 22050, 16, 44, 2,
            wavHeader ⟨1, 1, 22050, 16, 0, 0, []⟩ 2 ++ [1, 2]⟩ 5
          ++ [1, 2, 3, 4, 5]).drop 44 = [1, 2, 3, 4, 5]
    ∧ (wavHeader ⟨1, 1, 22050, 16, 44, 2,
            wavHeader ⟨1, 1, 22050, 16, 0, 0, []⟩ 2 ++ [1, 2]⟩ 5
          ++ [1, 2, 3, 4, 5]).length = 44 + 5
    ∧ readU32 (wavHeader ⟨1, 1, 22050, 16, 44, 2,
            wavHeader ⟨1, 1, 22050, 16, 0, 0, []⟩ 2 ++ [1, 2]⟩ 5
          ++ [1, 2, 3, 4, 5]) 4 = 4 + (8 + 16) + (8 + 5)
    ∧ parseWav (wavHeader ⟨1, 1, 22050, 16, 44, 2,
            wavHeader ⟨1, 1, 22050, 16, 0, 0, []⟩ 2 ++ [1, 2]⟩ 5
          ++ [1, 2, 3, 4, 5])
      = .ok ⟨1, 1, 22050, 16, 44, 5,
          wavHeader ⟨1, 1, 22050, 16, 44, 2,
            wavHeader ⟨1, 1, 22050, 16, 0, 0, []⟩ 2 ++ [1, 2]⟩ 5
          ++ [1, 2, 3, 4, 5]⟩ := by
  have h1 : parseAll
      [wavHeader ⟨1, 1, 22050, 16, 0, 0, []⟩ 2 ++ [1, 2],
        wavHeader ⟨1, 1, 22050, 16, 0, 0, []⟩ 3 ++ [3, 4, 5]]
      = .ok [⟨1, 1, 22050, 16, 44, 2,
          wavHeader ⟨1, 1, 22050, 16, 0, 0, []⟩ 2 ++ [1, 2]⟩,
        ⟨1, 1, 22050, 16, 44, 3,
          wavHeader ⟨1, 1, 22050, 16, 0, 0, []⟩ 3 ++ [3, 4, 5]⟩] := by
    simp only [parseAll]
    rw [wavHeader_reparse ⟨1, 1, 22050, 16, 0, 0, []⟩ 2 [1, 2] rfl
        (by decide) (by decide) (by decide) (by decide) (by decide),
      wavHeader_reparse ⟨1, 1, 22050, 16, 0, 0, []⟩ 3 [3, 4, 5] rfl
        (by decide) (by decide) (by decide) (by decide) (by decide)]
  have h := C4_splice_roundtrip
    [wavHeader ⟨1, 1, 22050, 16, 0, 0, []⟩ 2 ++ [1, 2],
      wavHeader ⟨1, 1, 22050, 16, 0, 0, []⟩ 3 ++ [3, 4, 5]]
    ⟨1, 1, 22050, 16, 44, 2, wavHeader ⟨1, 1, 22050, 16, 0, 0, []⟩ 2 ++ [1, 2]⟩
    [⟨1, 1, 22050, 16, 44, 3, wavHeader ⟨1, 1, 22050, 16, 0, 0, []⟩ 3 ++ [3, 4, 5]⟩]
    h1 (by decide) (by decide) (by decide) (by decide) (by decide)
  have hsum : (([⟨1, 1, 22050, 16, 44, 2,
        wavHeader ⟨1, 1, 22050, 16, 0, 0, []⟩ 2 ++ [1, 2]⟩,
      ⟨1, 1, 22050, 16, 44, 3,
        wavHeader ⟨1, 1, 22050, 16, 0, 0, []⟩ 3 ++ [3, 4, 5]⟩] : List WavInfo).map
        (fun i => i.dataLength)).sum = 5 := by decide
  have hflat : (([⟨1, 1, 22050, 16, 44, 2,
        wavHeader ⟨1, 1, 22050, 16, 0, 0, []⟩ 2 ++ [1, 2]⟩,
      ⟨1, 1, 22050, 16, 44, 3,
        wavHeader ⟨1, 1, 22050, 16, 0, 0, []⟩ 3 ++ [3, 4, 5]⟩] : List WavInfo).map
        wavPayload).flatten = [1, 2, 3, 4, 5] := by decide
  rw [hsum, hflat] at h
  exact h

/-- C5: if any fragment's parsed format descriptor differs from the first
fragment's, `combineWavs` throws the format-mismatch error before writing
anything. -/
theorem C5_format_mismatch (inputs : List (List Nat)) (first : WavInfo)
    (rest : List WavInfo)
    (h1 : parseAll inputs = .ok (first :: rest))
    (h2 : rest.all (fun i => sameFmt i first) = false) :
    combineWavs inputs = .error "WAV format mismatch between chunks" := by
  simp only [combineWavs, h1]
  rw [if_neg (by simp [h2])]

/-- C5 witness: a 22050 Hz fragment and a 44100 Hz fragment fail to
combine. -/
theorem C5_witness :
    combineWavs
        [wavHeader ⟨1, 1, 22050, 16, 0, 0, []⟩ 2 ++ [1, 2],
          wavHeader ⟨1, 1, 44100, 16, 0, 0, []⟩ 2 ++ [3, 4]]
      = .error "WAV format mismatch between chunks" := by
  have h1 : parseAll
      [wavHeader ⟨1, 1, 22050, 16, 0, 0, []⟩ 2 ++ [1, 2],
        wavHeader ⟨1, 1, 44100, 16, 0, 0, []⟩ 2 ++ [3, 4]]
      = .ok [⟨1, 1, 22050, 16, 44, 2,
          wavHeader ⟨1, 1, 22050, 16, 0, 0, []⟩ 2 ++ [1, 2]⟩,
        ⟨1, 1, 44100, 16, 44, 2,
          wavHeader ⟨1, 1, 44100, 16, 0, 0, []⟩ 2 ++ [3, 4]⟩] := by
    simp only [parseAll]
    rw [wavHeader_reparse ⟨1, 1, 22050, 16, 0, 0, []⟩ 2 [1, 2] rfl
        (by decide) (by decide) (by decide) (by decide) (by decide),
      wavHeader_reparse ⟨1, 1, 44100, 16, 0, 0, []⟩ 2 [3, 4] rfl
        (by decide) (by decide) (by decide) (by decide) (by decide)]
  exact C5_format_mismatch _ _ _ h1 (by decide)

end ReadinTime
